import Mathlib

/-!
# Shallow embedding of the go-qrcode encoder core

This file embeds the QR-code encoder of the repository (package `qrcode`,
main file with `New`, `newWithForcedVersion`, `QRCode.encode`,
`QRCode.encodeBlocks`, `QRCode.addPadding`, `QRCode.addTerminatorBits`, and
`option.go` with the functional options) and proves properties of the
embedding.

The repository's sources include only the top-level encoder file and
`option.go`; the supporting packages (bitset, reedsolomon, the version
catalog, the symbol builder) are declared and called but their files are not
part of the repository snapshot.  Definitions for those parts are modelled
from the specification and are marked `Modelled from the spec:` in their doc
comments.  Go slices of bits become `List Bool`, Go `int` becomes `Int` where
a value can be negative (user-supplied options, version numbers) and `Nat`
elsewhere, `log.Panic`/`log.Fatal` process aborts become a dedicated result
constructor distinct from returned errors.
-/

/-! ## Bit buffer (Modelled from the spec: the bitset package is not in the
repository files; spec section 4.1 gives append, append-zeros, append-buffer,
substring and length). Bits are `List Bool`, append is `++`,
`AppendNumBools n b` is `++ List.replicate n b`. -/

/-- `Substr l s e` models `Bitset.Substr(start, end)`: the bits of the
half-open range `[s, e)`. -/
def Substr (l : List Bool) (s e : Nat) : List Bool :=
  (l.drop s).take (e - s)

/-- `toBits n v` models appending the `n` low bits of `v`, most significant
bit first (spec section 4.1: big-endian within each appended integer). -/
def toBits : Nat → Nat → List Bool
  | 0, _ => []
  | n + 1, v => toBits n (v / 2) ++ [v % 2 == 1]

/-- Fuel-driven worker for `chunk8`: the fuel (any bound on the length) only
forces structural termination. -/
def chunkAux : Nat → List Bool → List (List Bool)
  | 0, _ => []
  | _ + 1, [] => []
  | f + 1, a :: l => (a :: l).take 8 :: chunkAux f ((a :: l).drop 8)

/-- Split a bit sequence into 8-bit codeword groups, in order; a trailing
group may be shorter when the length is not a multiple of 8. -/
def chunk8 (l : List Bool) : List (List Bool) :=
  chunkAux l.length l

/-- Value of a codeword group, most significant bit first. -/
def byteVal (l : List Bool) : Nat :=
  l.foldl (fun a b => 2 * a + (if b then 1 else 0)) 0

/-- A bit stream as a sequence of codeword values. -/
def bitsToBytes (l : List Bool) : List Nat :=
  (chunk8 l).map byteVal

/-! ## GF(256) and Reed–Solomon (Modelled from the spec: the reedsolomon
package is not in the repository files; spec sections 4.2 and 4.3 give the
field, the generator polynomials and the encoder). -/

/-- One shift-and-add step chain for carry-less multiplication reduced by the
primitive polynomial 0x11D (spec section 4.2). -/
def gfMulAux : Nat → Nat → Nat → Nat → Nat
  | 0, _, _, acc => acc
  | n + 1, a, b, acc =>
    let acc' := if b % 2 = 1 then acc ^^^ a else acc
    let a' := if 128 ≤ a then (2 * a) ^^^ 0x11D else 2 * a
    gfMulAux n a' (b / 2) acc'

/-- Multiplication in GF(2^8) with primitive polynomial 0x11D. -/
def gfMul (a b : Nat) : Nat := gfMulAux 8 a b 0

/-- Powers of the primitive element alpha = 2. -/
def gfPowAlpha : Nat → Nat
  | 0 => 1
  | n + 1 => gfMul 2 (gfPowAlpha n)

/-- Multiply a polynomial (coefficients high degree first) by `(x + a)`. -/
def polyMulLin (p : List Nat) (a : Nat) : List Nat :=
  List.zipWith (fun u v => u ^^^ v) (p ++ [0]) (0 :: p.map (gfMul a))

/-- Generator polynomial of degree `t`: the product of `(x - alpha^i)` for
`i < t`, coefficients high degree first (spec section 4.2). -/
def rsGenerator (t : Nat) : List Nat :=
  (List.range t).foldl (fun p i => polyMulLin p (gfPowAlpha i)) [1]

/-- One LFSR division step: feed one data codeword into the remainder
register. -/
def rsStep (genTail : List Nat) (r : List Nat) (d : Nat) : List Nat :=
  let f := d ^^^ r.headD 0
  List.zipWith (fun x g => x ^^^ gfMul f g) (r.tail ++ [0]) genTail

/-- Remainder of `D(x) * x^t` divided by the degree-`t` generator polynomial
over GF(256), high-degree coefficient first (spec section 4.3). -/
def rsRemainder (data : List Nat) (t : Nat) : List Nat :=
  data.foldl (rsStep (rsGenerator t).tail) (List.replicate t 0)

/-- `rsEncode data t` models `reedsolomon.Encode`: the input bit stream with
the `t` error-correction codewords appended (the caller `encodeBlocks` reads
offsets below the data length as data codewords and the rest as EC
codewords). -/
def rsEncode (data : List Bool) (t : Nat) : List Bool :=
  data ++ (rsRemainder (bitsToBytes data) t).flatMap (toBits 8)

/-! ## Version catalog (Modelled from the spec: the version table file is not
in the repository files; spec section 3 gives the descriptor shape, section
4.5 its use, and the counts are the standard's capacity tables the spec
points to).  Each descriptor aggregates the version's blocks into a single
block group carrying the version's total and data codeword counts; the claims
that depend on the block layout quantify over arbitrary layouts. -/

/-- Error recovery levels, as in the Go sources: `Low`, `Medium`, `High`,
`Highest` (the spec's L/M/Q/H). -/
inductive RecoveryLevel where
  | Low
  | Medium
  | High
  | Highest
deriving DecidableEq, Repr

/-- One group of equally-sized blocks of a version descriptor. -/
structure blockGroup where
  numBlocks : Nat
  numCodewords : Nat
  numDataCodewords : Nat
deriving DecidableEq, Repr

/-- A version descriptor (one per version/level pair). -/
structure qrCodeVersion where
  version : Nat
  level : RecoveryLevel
  block : List blockGroup
  numRemainderBits : Nat
  quietZoneSize : Nat
deriving DecidableEq, Repr

/-- Pick the level's entry of a capacity row. -/
def levelPick (l : RecoveryLevel) (a b c d : Nat) : Nat :=
  match l with
  | .Low => a
  | .Medium => b
  | .High => c
  | .Highest => d

/-- Data codewords available at (version, level), ISO/IEC 18004 capacity
table. -/
def numDataCodewordsTable (v : Nat) (l : RecoveryLevel) : Nat :=
  match v with
  | 1 => levelPick l 19 16 13 9
  | 2 => levelPick l 34 28 22 16
  | 3 => levelPick l 55 44 34 26
  | 4 => levelPick l 80 64 48 36
  | 5 => levelPick l 108 86 62 46
  | 6 => levelPick l 136 108 76 60
  | 7 => levelPick l 156 124 88 66
  | 8 => levelPick l 194 154 110 86
  | 9 => levelPick l 232 182 132 100
  | 10 => levelPick l 274 216 154 122
  | 11 => levelPick l 324 254 180 140
  | 12 => levelPick l 370 290 206 158
  | 13 => levelPick l 428 334 244 180
  | 14 => levelPick l 461 365 261 197
  | 15 => levelPick l 523 415 295 223
  | 16 => levelPick l 589 453 325 253
  | 17 => levelPick l 647 507 367 283
  | 18 => levelPick l 721 563 397 313
  | 19 => levelPick l 795 627 445 341
  | 20 => levelPick l 861 669 485 385
  | 21 => levelPick l 932 714 512 406
  | 22 => levelPick l 1006 782 568 442
  | 23 => levelPick l 1094 860 614 464
  | 24 => levelPick l 1174 914 664 514
  | 25 => levelPick l 1276 1000 718 538
  | 26 => levelPick l 1370 1062 754 596
  | 27 => levelPick l 1468 1128 808 628
  | 28 => levelPick l 1531 1193 871 661
  | 29 => levelPick l 1631 1267 911 701
  | 30 => levelPick l 1735 1373 985 745
  | 31 => levelPick l 1843 1455 1033 793
  | 32 => levelPick l 1955 1541 1115 845
  | 33 => levelPick l 2071 1631 1171 901
  | 34 => levelPick l 2191 1725 1231 961
  | 35 => levelPick l 2306 1812 1286 986
  | 36 => levelPick l 2434 1914 1354 1054
  | 37 => levelPick l 2566 1992 1426 1096
  | 38 => levelPick l 2702 2102 1502 1142
  | 39 => levelPick l 2812 2216 1582 1222
  | 40 => levelPick l 2956 2334 1666 1276
  | _ => 0

/-- Total codewords per version, ISO/IEC 18004. -/
def numTotalCodewordsTable (v : Nat) : Nat :=
  match v with
  | 1 => 26 | 2 => 44 | 3 => 70 | 4 => 100 | 5 => 134 | 6 => 172
  | 7 => 196 | 8 => 242 | 9 => 292 | 10 => 346 | 11 => 404 | 12 => 466
  | 13 => 532 | 14 => 581 | 15 => 655 | 16 => 733 | 17 => 815 | 18 => 901
  | 19 => 991 | 20 => 1085 | 21 => 1156 | 22 => 1258 | 23 => 1364
  | 24 => 1474 | 25 => 1588 | 26 => 1706 | 27 => 1828 | 28 => 1921
  | 29 => 2051 | 30 => 2185 | 31 => 2323 | 32 => 2465 | 33 => 2611
  | 34 => 2761 | 35 => 2876 | 36 => 3034 | 37 => 3196 | 38 => 3362
  | 39 => 3532 | 40 => 3706
  | _ => 0

/-- Remainder bits per version (0/3/4/7 depending on the version, spec
section 3). -/
def numRemainderBitsTable (v : Nat) : Nat :=
  if v ≤ 1 then 0
  else if v ≤ 6 then 7
  else if v ≤ 13 then 0
  else if v ≤ 20 then 3
  else if v ≤ 27 then 4
  else if v ≤ 34 then 3
  else 0

/-- The catalog's descriptor for (level, version); quiet zone defaults to 4
(spec section 4.8). -/
def versionDescriptor (l : RecoveryLevel) (v : Nat) : qrCodeVersion :=
  { version := v
    level := l
    block := [⟨1, numTotalCodewordsTable v, numDataCodewordsTable v l⟩]
    numRemainderBits := numRemainderBitsTable v
    quietZoneSize := 4 }

/-- `getQRCodeVersion` (Modelled from the spec: catalog lookup; an entry
exists exactly for versions 1..40). -/
def getQRCodeVersion (l : RecoveryLevel) (v : Int) : Option qrCodeVersion :=
  if 1 ≤ v ∧ v ≤ 40 then some (versionDescriptor l v.toNat) else none

/-- Total data bits of a version: derived from its block groups (spec
section 3). -/
def qrCodeVersion.numDataBits (v : qrCodeVersion) : Nat :=
  (v.block.map (fun g => 8 * g.numBlocks * g.numDataCodewords)).sum

/-- `numTerminatorBitsRequired` (Modelled from the spec, section 4.5:
terminator count is `min(4, numDataBits - encoded_bits)`). -/
def qrCodeVersion.numTerminatorBitsRequired (v : qrCodeVersion) (n : Nat) : Nat :=
  min 4 (v.numDataBits - n)

/-- `numBitsToPadToCodeword` (Modelled from the spec, section 4.6: zero-pad
to the next multiple of 8 bits). -/
def qrCodeVersion.numBitsToPadToCodeword (v : qrCodeVersion) (n : Nat) : Nat :=
  if n = v.numDataBits then 0 else (8 - n % 8) % 8

/-- `setQuietZoneSize` (Modelled from the spec, section 4.8: the quiet zone
is 4 by default and configurable; a non-positive requested size leaves the
default in place, which is how the encoder's unconditional
`setQuietZoneSize(q.QuitZoneSize)` call with the zero-valued field keeps the
default). -/
def qrCodeVersion.setQuietZoneSize (v : qrCodeVersion) (s : Int) : qrCodeVersion :=
  if 0 < s then { v with quietZoneSize := s.toNat } else v

/-! ## Data encoder (Modelled from the spec: the dataencoder file is not in
the repository files; spec section 4.4 gives mode analysis and bit
emission). -/

/-- The three version classes of data encoders. -/
inductive dataEncoderType where
  | type1To9
  | type10To26
  | type27To40
deriving DecidableEq, Repr

/-- Smallest version of the class. -/
def dataEncoderType.minVersion : dataEncoderType → Nat
  | .type1To9 => 1
  | .type10To26 => 10
  | .type27To40 => 27

/-- Largest version of the class. -/
def dataEncoderType.maxVersion : dataEncoderType → Nat
  | .type1To9 => 9
  | .type10To26 => 26
  | .type27To40 => 40

/-- Data encoding modes produced by the core. -/
inductive Mode where
  | numeric
  | alphanumeric
  | byteMode
deriving DecidableEq, Repr

/-- Byte is an ASCII digit. -/
def isNumericByte (b : Nat) : Bool := 48 ≤ b && b ≤ 57

/-- Value of a byte in the 45-character alphanumeric set
`0-9A-Z $%*+-./:`; 45 when the byte is not in the set. -/
def alphanumericValue (b : Nat) : Nat :=
  if 48 ≤ b ∧ b ≤ 57 then b - 48
  else if 65 ≤ b ∧ b ≤ 90 then b - 55
  else if b = 32 then 36
  else if b = 36 then 37
  else if b = 37 then 38
  else if b = 42 then 39
  else if b = 43 then 40
  else if b = 45 then 41
  else if b = 46 then 42
  else if b = 47 then 43
  else if b = 58 then 44
  else 45

/-- Byte is in the alphanumeric set. -/
def isAlphanumericByte (b : Nat) : Bool := alphanumericValue b < 45

/-- Mode analysis: numeric when every byte is a digit, else alphanumeric when
every byte is in the alphanumeric set, else byte (spec section 4.4). -/
def analyzeMode (content : List Nat) : Mode :=
  if content.all isNumericByte then .numeric
  else if content.all isAlphanumericByte then .alphanumeric
  else .byteMode

/-- Numeric payload bits: groups of 3 digits as 10 bits, trailing 2 digits as
7 bits, a trailing digit as 4 bits. -/
def encodeNumeric : List Nat → List Bool
  | a :: b :: c :: rest =>
    toBits 10 ((a - 48) * 100 + (b - 48) * 10 + (c - 48)) ++ encodeNumeric rest
  | [a, b] => toBits 7 ((a - 48) * 10 + (b - 48))
  | [a] => toBits 4 (a - 48)
  | [] => []

/-- Alphanumeric payload bits: pairs as `a*45 + b` in 11 bits, a trailing
character as 6 bits. -/
def encodeAlphanumeric : List Nat → List Bool
  | a :: b :: rest =>
    toBits 11 (alphanumericValue a * 45 + alphanumericValue b) ++ encodeAlphanumeric rest
  | [a] => toBits 6 (alphanumericValue a)
  | [] => []

/-- Byte payload bits: each byte as 8 bits. -/
def encodeByte (content : List Nat) : List Bool :=
  content.flatMap (toBits 8)

/-- 4-bit mode indicator: numeric 0001, alphanumeric 0010, byte 0100. -/
def modeIndicator : Mode → List Bool
  | .numeric => toBits 4 1
  | .alphanumeric => toBits 4 2
  | .byteMode => toBits 4 4

/-- Character-count indicator width by class and mode: numeric {10,12,14},
alphanumeric {9,11,13}, byte {8,16,16} (spec section 3). -/
def charCountBits (t : dataEncoderType) (m : Mode) : Nat :=
  match t, m with
  | .type1To9, .numeric => 10
  | .type1To9, .alphanumeric => 9
  | .type1To9, .byteMode => 8
  | .type10To26, .numeric => 12
  | .type10To26, .alphanumeric => 11
  | .type10To26, .byteMode => 16
  | .type27To40, .numeric => 14
  | .type27To40, .alphanumeric => 13
  | .type27To40, .byteMode => 16

/-- `dataEncoder.encode` (Modelled from the spec, section 4.4): mode
indicator, character count, payload bits. -/
def dataEncode (t : dataEncoderType) (content : List Nat) : List Bool :=
  let m := analyzeMode content
  modeIndicator m ++ toBits (charCountBits t m) content.length ++
    (match m with
     | .numeric => encodeNumeric content
     | .alphanumeric => encodeAlphanumeric content
     | .byteMode => encodeByte content)

/-- `chooseQRCodeVersion` (Modelled from the spec, section 4.5: within the
class, the smallest version whose data capacity at the requested level is at
least the encoded bit count; terminator bits are capped afterwards). -/
def chooseQRCodeVersion (level : RecoveryLevel) (t : dataEncoderType) (numBits : Nat) :
    Option qrCodeVersion :=
  ((List.range' t.minVersion (t.maxVersion + 1 - t.minVersion)).find?
    (fun v => numBits ≤ (versionDescriptor level v).numDataBits)).map
    (versionDescriptor level)

/-! ## Symbol (Modelled from the spec: the symbol file is not in the
repository files; spec sections 4.7-4.9 describe the matrix, masking,
penalties, quiet zone and bitmap export).  The grid holds the symbol's
modules row by row in pre-quiet-zone coordinates; the data placement is a
simplified row-major stand-in for the zig-zag walk of section 4.7 — the
claims about mask selection quantify over arbitrary penalty values and
builders, and the quiet-zone claims depend only on the framing, so only the
masking XOR, the grid shape and the framing are load-bearing here. -/

/-- A candidate symbol: module grid, sizes and the count of modules left
empty after placement (an invariant-violation counter the encoder checks). -/
structure symbol where
  symbolSize : Nat
  quietZoneSize : Nat
  size : Nat
  grid : List (List Bool)
  numEmptyModules : Nat
deriving DecidableEq, Repr

/-- The eight mask predicates of spec section 4.7 at (row, column). -/
def maskAt (m r c : Nat) : Bool :=
  match m with
  | 0 => (r + c) % 2 == 0
  | 1 => r % 2 == 0
  | 2 => c % 3 == 0
  | 3 => (r + c) % 3 == 0
  | 4 => (r / 2 + c / 3) % 2 == 0
  | 5 => (r * c) % 2 + (r * c) % 3 == 0
  | 6 => ((r * c) % 2 + (r * c) % 3) % 2 == 0
  | 7 => ((r + c) % 2 + (r * c) % 3) % 2 == 0
  | _ => false

/-- Simplified placement: the message bit a module reads before masking. -/
def placedBit (encoded : List Bool) (ss x y : Nat) : Bool :=
  encoded.getD ((y * ss + x) % max 1 encoded.length) false

/-- The candidate symbol built for a mask: every module is placed, so
`numEmptyModules` is 0 as spec section 7 requires of a correct build.  A
positive `margin` configures the quiet zone, otherwise the version's default
stands. -/
def builtSymbol (ver : qrCodeVersion) (mask : Nat) (encoded : List Bool)
    (margin : Int) : symbol :=
  let ss := 17 + 4 * ver.version
  let qz := if 0 < margin then margin.toNat else ver.quietZoneSize
  { symbolSize := ss
    quietZoneSize := qz
    size := ss + 2 * qz
    grid := (List.range ss).map (fun y => (List.range ss).map (fun x =>
      xor (placedBit encoded ss x y) (maskAt mask y x)))
    numEmptyModules := 0 }

/-- `buildRegularSymbol` (Modelled from the spec): build the candidate symbol
for a mask; the build always succeeds (its Go error return is nil). -/
def buildRegularSymbol (ver : qrCodeVersion) (mask : Nat) (encoded : List Bool)
    (margin : Int) : Except String symbol :=
  Except.ok (builtSymbol ver mask encoded margin)

/-- `symbol.bitmap` (Modelled from the spec, sections 4.8-4.9): the
(size)×(size) boolean matrix, quiet-zone cells light, indexed bitmap[y][x]. -/
def symbol.bitmap (s : symbol) : List (List Bool) :=
  (List.range s.size).map (fun y => (List.range s.size).map (fun x =>
    if s.quietZoneSize ≤ x ∧ x < s.quietZoneSize + s.symbolSize ∧
       s.quietZoneSize ≤ y ∧ y < s.quietZoneSize + s.symbolSize
    then (s.grid.getD (y - s.quietZoneSize) []).getD (x - s.quietZoneSize) false
    else false))

/-- Penalty of one maximal same-color run (spec section 4.7, rule P1). -/
def runScore (n : Nat) : Nat := if 5 ≤ n then n - 2 else 0

/-- Accumulate rule P1 over a line, tracking the current run. -/
def runPenaltyAux : List Bool → Bool → Nat → Nat
  | [], _, run => runScore run
  | b :: rest, prev, run =>
    if b == prev then runPenaltyAux rest prev (run + 1)
    else runScore run + runPenaltyAux rest b 1

/-- Rule P1 over one row or column. -/
def runPenalty (l : List Bool) : Nat :=
  match l with
  | [] => 0
  | b :: rest => runPenaltyAux rest b 1

/-- Columns of a grid as rows. -/
def transposeGrid (g : List (List Bool)) : List (List Bool) :=
  (List.range (g.headD []).length).map (fun x => g.map (fun row => row.getD x false))

/-- Rule P1: runs of 5 or more in every row and column. -/
def penalty1 (g : List (List Bool)) : Nat :=
  (g.map runPenalty).sum + ((transposeGrid g).map runPenalty).sum

/-- 2×2 same-color blocks between two adjacent rows (rule P2). -/
def pairBlocks : List Bool → List Bool → Nat
  | a :: a2 :: ra, b :: b2 :: rb =>
    (if a == a2 && a2 == b && b == b2 then 3 else 0) + pairBlocks (a2 :: ra) (b2 :: rb)
  | _, _ => 0

/-- Rule P2 over the whole grid. -/
def penalty2 : List (List Bool) → Nat
  | r1 :: r2 :: rest => pairBlocks r1 r2 + penalty2 (r2 :: rest)
  | _ => 0

/-- The dark/light pattern 10111010000 of rule P3. -/
def p3PatternA : List Bool :=
  [true, false, true, true, true, false, true, false, false, false, false]

/-- The dark/light pattern 00001011101 of rule P3. -/
def p3PatternB : List Bool :=
  [false, false, false, false, true, false, true, true, true, false, true]

/-- Occurrences of a pattern at any offset of a line. -/
def countPattern (pat : List Bool) : List Bool → Nat
  | [] => 0
  | b :: rest' =>
    (if pat.isPrefixOf (b :: rest') then 1 else 0) + countPattern pat rest'

/-- Rule P3: 40 per occurrence in any row or column. -/
def penalty3 (g : List (List Bool)) : Nat :=
  40 * ((g.map (fun r => countPattern p3PatternA r + countPattern p3PatternB r)).sum +
    ((transposeGrid g).map
      (fun r => countPattern p3PatternA r + countPattern p3PatternB r)).sum)

/-- Rule P4: deviation of the dark-module ratio from 50%. -/
def penalty4 (g : List (List Bool)) : Nat :=
  let total := (g.map List.length).sum
  let dark := (g.map (fun r => r.count true)).sum
  let ratio := (100 * dark) / max 1 total
  10 * ((if 50 ≤ ratio then ratio - 50 else 50 - ratio) / 5)

/-- `penaltyScore` (Modelled from the spec, section 4.7): the sum of the four
penalty rules. -/
def symbol.penaltyScore (s : symbol) : Int :=
  ((penalty1 s.grid + penalty2 s.grid + penalty3 s.grid + penalty4 s.grid : Nat) : Int)

/-! ## Padding and block assembly (embedded from the repository's
`QRCode.addTerminatorBits`, `QRCode.addPadding` and `QRCode.encodeBlocks`). -/

/-- The two padding codewords 0xEC (11101100) and 0x11 (00010001); index 0 is
0xEC, anything else 0x11. -/
def padCodeword (i : Nat) : List Bool :=
  if i = 0 then [true, true, true, false, true, true, false, false]
  else [false, false, false, true, false, false, false, true]

/-- Fuel-driven worker for the pad-codeword loop (any fuel bounding the
remaining bit count gives the loop's value). -/
def padLoopAux : Nat → Nat → Nat → List Bool → List Bool
  | 0, _, _, d => d
  | f + 1, nd, i, d =>
    if 8 ≤ nd - d.length then padLoopAux f nd (1 - i) (d ++ padCodeword i) else d

/-- The pad-codeword loop of `addPadding`: while at least 8 bits remain below
`nd`, append `padCodeword i` and alternate `i` between 0 and 1. -/
def padLoop (nd i : Nat) (d : List Bool) : List Bool :=
  padLoopAux (nd - d.length) nd i d

/-- One unfolding step of the worker. -/
theorem padLoopAux_step (f nd i : Nat) (d : List Bool) :
    padLoopAux (f + 1) nd i d =
      if 8 ≤ nd - d.length then padLoopAux f nd (1 - i) (d ++ padCodeword i) else d := rfl

/-- The length of either pad codeword is 8. -/
theorem padCodeword_length (i : Nat) : (padCodeword i).length = 8 := by
  unfold padCodeword
  split <;> rfl

/-- The worker's value does not depend on the fuel once the fuel bounds the
remaining bit count. -/
theorem padLoopAux_congr : ∀ (f g nd i : Nat) (d : List Bool),
    nd - d.length ≤ f → nd - d.length ≤ g →
    padLoopAux f nd i d = padLoopAux g nd i d := by
  intro f
  induction f with
  | zero =>
    intro g nd i d hf hg
    cases g with
    | zero => rfl
    | succ g' =>
      rw [padLoopAux_step, if_neg (by omega)]
      rfl
  | succ f' ih =>
    intro g nd i d hf hg
    cases g with
    | zero =>
      rw [padLoopAux_step, if_neg (by omega)]
      rfl
    | succ g' =>
      rw [padLoopAux_step, padLoopAux_step]
      by_cases hcond : 8 ≤ nd - d.length
      · rw [if_pos hcond, if_pos hcond]
        refine ih g' nd (1 - i) (d ++ padCodeword i) ?_ ?_ <;>
          · simp only [List.length_append, padCodeword_length]
            omega
      · rw [if_neg hcond, if_neg hcond]

/-- The loop equation of `padLoop`, as the Go while-loop steps. -/
theorem padLoop_unfold (nd i : Nat) (d : List Bool) :
    padLoop nd i d =
      if 8 ≤ nd - d.length then padLoop nd (1 - i) (d ++ padCodeword i) else d := by
  unfold padLoop
  by_cases hcond : 8 ≤ nd - d.length
  · rw [if_pos hcond]
    obtain ⟨k, hk⟩ : ∃ k, nd - d.length = k + 1 := ⟨nd - d.length - 1, by omega⟩
    rw [hk, padLoopAux_step, if_pos hcond]
    refine padLoopAux_congr _ _ nd (1 - i) (d ++ padCodeword i) ?_ ?_
    · simp only [List.length_append, padCodeword_length]
      omega
    · exact le_refl _
  · rw [if_neg hcond]
    cases hk : nd - d.length with
    | zero => rfl
    | succ k' => rw [padLoopAux_step, if_neg hcond]

/-- `QRCode.addPadding`, embedded: unchanged when the buffer already has
`numDataBits` bits; otherwise zero-pad to the codeword boundary, append pad
codewords while at least 8 bits remain, and `log.Panicf` (modelled as `none`)
when the final length misses `numDataBits`. -/
def addPadding (ver : qrCodeVersion) (data : List Bool) : Option (List Bool) :=
  let nd := ver.numDataBits
  if data.length = nd then some data
  else
    let d1 := data ++ List.replicate (ver.numBitsToPadToCodeword data.length) false
    let d2 := padLoop nd 0 d1
    if d2.length ≠ nd then none else some d2

/-- `QRCode.addTerminatorBits`, embedded: append the terminator bits as
zeros. -/
def addTerminatorBits (data : List Bool) (numTerminatorBits : Nat) : List Bool :=
  data ++ List.replicate numTerminatorBits false

/-- The per-block data of `encodeBlocks`: `(numDataCodewords, numCodewords)`
of every individual block, groups expanded in order. -/
def expandSpans (groups : List blockGroup) : List (Nat × Nat) :=
  groups.flatMap (fun g => List.replicate g.numBlocks (g.numDataCodewords, g.numCodewords))

/-- The splitting loop of `encodeBlocks`: walk the block spans keeping the
running `start`/`end` offsets, apply error correction to each block's data
bits and record its `ecStartOffset`. -/
def splitBlocks (rs : List Bool → Nat → List Bool) (data : List Bool) :
    List (Nat × Nat) → Nat → List (List Bool × Nat)
  | [], _ => []
  | (dcw, cw) :: rest, start =>
    let e := start + dcw * 8
    (rs (Substr data start e) (cw - dcw), e - start) :: splitBlocks rs data rest e

/-- The data-codeword interleaving loop of `encodeBlocks`: per pass over the
blocks, every block whose `ecStartOffset` is still ahead of `i` contributes
its 8-bit codeword at `i`; the loop stops on the first pass in which no block
contributes (`working` stays false).  The fuel argument only bounds the pass
count; `interleave8_stops` shows the guard fails once `i` passes every
block's offset, so any sufficient fuel computes the while-loop's value. -/
def interleave8 (blocks : List (List Bool × Nat)) : Nat → Nat → List Bool
  | 0, _ => []
  | f + 1, i =>
    if blocks.any (fun b => decide (i < b.2)) then
      (blocks.filterMap (fun b => if i < b.2 then some (Substr b.1 i (i + 8)) else none)).flatten
        ++ interleave8 blocks f (i + 8)
    else []

/-- The EC-codeword interleaving loop of `encodeBlocks`: same passes, reading
each block at `offset = i + ecStartOffset` while that is below the block's
length. -/
def interleaveEC (blocks : List (List Bool × Nat)) : Nat → Nat → List Bool
  | 0, _ => []
  | f + 1, i =>
    if blocks.any (fun b => decide (i + b.2 < b.1.length)) then
      (blocks.filterMap (fun b =>
        if i + b.2 < b.1.length then some (Substr b.1 (i + b.2) (i + b.2 + 8)) else none)).flatten
        ++ interleaveEC blocks f (i + 8)
    else []

/-- `QRCode.encodeBlocks`, embedded over an arbitrary `reedsolomon.Encode`
function `rs`: split the padded data into blocks with error correction,
interleave the data codewords, interleave the EC codewords, append the
remainder bits as zeros. -/
def encodeBlocks (rs : List Bool → Nat → List Bool) (ver : qrCodeVersion)
    (data : List Bool) : List Bool :=
  let blocks := splitBlocks rs data (expandSpans ver.block) 0
  let df := ((blocks.map (fun b => b.2)).foldr max 0) / 8 + 1
  let ef := ((blocks.map (fun b => b.1.length - b.2)).foldr max 0) / 8 + 1
  interleave8 blocks df 0 ++ interleaveEC blocks ef 0 ++
    List.replicate ver.numRemainderBits false

/-! ## Mask selection (embedded from the mask loop of `QRCode.encode`). -/

/-- One iteration of the mask loop: a build error or a non-zero
`numEmptyModules` count is a `log.Panic` (modelled as `none`); otherwise the
candidate replaces the running best exactly when no symbol is stored yet or
its penalty is strictly lower. -/
def maskStep (build : Nat → Except String symbol) (pscore : symbol → Int)
    (st : Option (symbol × Nat) × Int) (mask : Nat) :
    Option (Option (symbol × Nat) × Int) :=
  match build mask with
  | .error _ => none
  | .ok s =>
    if s.numEmptyModules ≠ 0 then none
    else
      let p := pscore s
      match st.1 with
      | none => some (some (s, mask), p)
      | some _ => if p < st.2 then some (some (s, mask), p) else some st

/-- The mask loop of `QRCode.encode`: masks 0..7 in order, starting from no
stored symbol and penalty 0. -/
def maskLoop (build : Nat → Except String symbol) (pscore : symbol → Int) :
    Option (Option (symbol × Nat) × Int) :=
  (List.range 8).foldl (fun acc m => acc.bind (fun st => maskStep build pscore st m))
    (some (none, 0))

/-! ## QRCode, options and the constructors (embedded from the repository's
`QRCode`, `option.go`, `New`, `newWithForcedVersion` and `QRCode.encode`).
The drawing colors are rendering-only state with no bearing on the encoding
and stay unmodelled. -/

/-- The `QRCode` record.  `encoder` keeps the chosen encoder class. -/
structure QRCode where
  Content : List Nat
  level : RecoveryLevel
  VersionNumber : Int
  width : Int
  height : Int
  margin : Int
  QuitZoneSize : Int
  encoder : Option dataEncoderType
  version : qrCodeVersion
  data : List Bool
  symbol : Option symbol
  mask : Nat
deriving DecidableEq, Repr

/-- Outcome of a constructor: a value, a returned `error`, or a process
abort (`log.Panic`/`log.Panicf`/`log.Fatalf`), which never reaches the
caller as a value. -/
inductive Res where
  | ok (q : QRCode)
  | err (msg : String)
  | abort (msg : String)
deriving DecidableEq, Repr

/-- The functional options of `option.go`, one constructor per published
option. -/
inductive QROption where
  | width (w : Int)
  | height (h : Int)
  | margin (m : Int)
  | quitZoneSize (s : Int)
  | level (l : RecoveryLevel)
  | version (v : Int)
deriving DecidableEq, Repr

/-- Apply one option exactly as `option.go` does; note `QuitZoneSize` acts on
the current `q.version` and `Version` only writes the `VersionNumber`
field. -/
def applyOption (q : QRCode) : QROption → QRCode
  | .width w => { q with width := w }
  | .height h => { q with height := h }
  | .margin m => { q with margin := m }
  | .quitZoneSize s => { q with version := q.version.setQuietZoneSize s }
  | .level l => { q with level := l }
  | .version v => { q with VersionNumber := v }

/-- `QRCode.Set`: apply the options in order (the color defaulting it also
performs concerns the unmodelled drawing state). -/
def setOptions (q : QRCode) (opts : List QROption) : QRCode :=
  opts.foldl applyOption q

/-- The zero value of `qrCodeVersion`, as a fresh Go struct has. -/
def zeroVersion : qrCodeVersion :=
  { version := 0, level := .Low, block := [], numRemainderBits := 0, quietZoneSize := 0 }

/-- The `QRCode` literal `New` starts from: content set, all other fields Go
zero values. -/
def initQRCode (content : List Nat) : QRCode :=
  { Content := content, level := .Low, VersionNumber := 0, width := 0, height := 0,
    margin := 0, QuitZoneSize := 0, encoder := none, version := zeroVersion,
    data := [], symbol := none, mask := 0 }

/-- Abort message of the `addPadding` length check. -/
def msgPaddingBug : String := "BUG: got len different from expected"

/-- Abort message of the mask loop (build failure or non-zero
`numEmptyModules`). -/
def msgSymbolBug : String := "bug: numEmptyModules is not 0"

/-- Error message of `New` when no version of any class admits the data. -/
def msgContentTooLong : String := "content too long to encode"

/-- Error message of `newWithForcedVersion` when the catalog lookup fails. -/
def msgCannotFindVersion : String := "cannot find QR Code version"

/-- Abort message of `newWithForcedVersion` for a version outside 1..40
(`log.Fatalf`). -/
def msgInvalidVersion : String := "Invalid version (expected 1-40 inclusive)"

/-- `QRCode.encode`, embedded: append terminator bits, pad, split and
interleave the blocks, then run the mask loop; a `none` from `addPadding` or
the mask loop is the corresponding `log.Panic`. -/
def QRCode.encode (q : QRCode) (numTerminatorBits : Nat) : Res :=
  let data := addTerminatorBits q.data numTerminatorBits
  match addPadding q.version data with
  | none => Res.abort msgPaddingBug
  | some padded =>
    let encoded := encodeBlocks rsEncode q.version padded
    match maskLoop (fun m => buildRegularSymbol q.version m encoded q.margin)
        symbol.penaltyScore with
    | none => Res.abort msgSymbolBug
    | some (some (s, mask), _) =>
      Res.ok { q with data := padded, symbol := some s, mask := mask }
    | some (none, _) => Res.ok { q with data := padded }

/-- The encoder-class loop of `New`: classes in the fixed order V1-V9,
V10-V26, V27-V40, re-encoding the payload for each class and stopping at the
first class for which `chooseQRCodeVersion` finds a version. -/
def versionSearchList (content : List Nat) (lv : RecoveryLevel) :
    List dataEncoderType → Option (dataEncoderType × List Bool × qrCodeVersion)
  | [] => none
  | t :: rest =>
    let encoded := dataEncode t content
    match chooseQRCodeVersion lv t encoded.length with
    | some v => some (t, encoded, v)
    | none => versionSearchList content lv rest

/-- The fixed class order of `New`. -/
def encoderTypes : List dataEncoderType := [.type1To9, .type10To26, .type27To40]

/-- The class/version search of `New` over the fixed class order. -/
def versionSearch (content : List Nat) (lv : RecoveryLevel) :
    Option (dataEncoderType × List Bool × qrCodeVersion) :=
  versionSearchList content lv encoderTypes

/-- The body of `New` after the options have been applied: search the version
classes, fail with the content-too-long error when none admits the payload,
otherwise record the chosen version (overwriting `VersionNumber`), set the
quiet zone from the (never option-set) `QuitZoneSize` field and run
`QRCode.encode`. -/
def newCore (q : QRCode) : Res :=
  match versionSearch q.Content q.level with
  | none => Res.err msgContentTooLong
  | some (t, encoded, chosenVersion) =>
    let q' := { q with
      VersionNumber := (chosenVersion.version : Int)
      encoder := some t
      data := encoded
      version := chosenVersion.setQuietZoneSize q.QuitZoneSize }
    q'.encode (chosenVersion.numTerminatorBitsRequired encoded.length)

/-- `New`, embedded: build the initial record, apply the options, run the
search and the encoding pipeline. -/
def New (content : List Nat) (opts : List QROption) : Res :=
  newCore (setOptions (initQRCode content) opts)

/-- `newWithForcedVersion`, embedded: versions outside 1..40 hit
`log.Fatalf` (an abort, not a returned error); otherwise encode with the
class of the forced version and run the pipeline on the catalog's
descriptor. -/
def newWithForcedVersion (content : List Nat) (version : Int) (level : RecoveryLevel) : Res :=
  match (if 1 ≤ version ∧ version ≤ 9 then some dataEncoderType.type1To9
         else if 10 ≤ version ∧ version ≤ 26 then some dataEncoderType.type10To26
         else if 27 ≤ version ∧ version ≤ 40 then some dataEncoderType.type27To40
         else none) with
  | none => Res.abort msgInvalidVersion
  | some t =>
    let encoded := dataEncode t content
    match getQRCodeVersion level version with
    | none => Res.err msgCannotFindVersion
    | some chosenVersion =>
      let q : QRCode :=
        { Content := content, level := level,
          VersionNumber := (chosenVersion.version : Int),
          width := 0, height := 0, margin := 0, QuitZoneSize := 0,
          encoder := some t, version := chosenVersion, data := encoded,
          symbol := none, mask := 0 }
      q.encode (chosenVersion.numTerminatorBitsRequired encoded.length)

/-! ## The mask loop picks the lowest-penalty mask, ties to the lowest
index. -/

/-- Invariant of the mask loop's fold after the first `n` masks, when every
build succeeds with zero empty modules: either nothing was processed yet, or
the state holds the first mask attaining the minimum penalty so far. -/
theorem maskFold_inv (build : Nat → Except String symbol) (pscore : symbol → Int)
    (syms : Nat → symbol)
    (hb : ∀ m, build m = Except.ok (syms m))
    (he : ∀ m, (syms m).numEmptyModules = 0) :
    ∀ n : Nat,
      (n = 0 ∧ (List.range n).foldl
          (fun acc m => acc.bind (fun st => maskStep build pscore st m))
          (some (none, 0)) = some (none, 0)) ∨
      (∃ mb, mb < n ∧
        (List.range n).foldl
          (fun acc m => acc.bind (fun st => maskStep build pscore st m))
          (some (none, 0)) = some (some (syms mb, mb), pscore (syms mb)) ∧
        (∀ m, m < n → pscore (syms mb) ≤ pscore (syms m)) ∧
        (∀ m, m < mb → pscore (syms mb) < pscore (syms m))) := by
  intro n
  induction n with
  | zero => exact Or.inl ⟨rfl, rfl⟩
  | succ n ih =>
    rw [List.range_succ, List.foldl_append]
    rcases ih with ⟨hn0, hst⟩ | ⟨mb, hmb, hst, hmin, hstrict⟩
    · subst hn0
      rw [hst]
      right
      refine ⟨0, Nat.one_pos, ?_, ?_, ?_⟩
      · simp [maskStep, hb, he]
      · intro m hm
        have hm0 : m = 0 := by omega
        subst hm0
        exact le_refl _
      · intro m hm
        exact absurd hm (Nat.not_lt_zero m)
    · rw [hst]
      right
      by_cases hlt : pscore (syms n) < pscore (syms mb)
      · refine ⟨n, Nat.lt_succ_self n, ?_, ?_, ?_⟩
        · simp [maskStep, hb, he, hlt]
        · intro m hm
          rcases Nat.lt_succ_iff_lt_or_eq.mp hm with h | h
          · exact le_of_lt (lt_of_lt_of_le hlt (hmin m h))
          · subst h
            exact le_refl _
        · intro m hm
          exact lt_of_lt_of_le hlt (hmin m hm)
      · refine ⟨mb, Nat.lt_succ_of_lt hmb, ?_, ?_, ?_⟩
        · simp [maskStep, hb, he, hlt]
        · intro m hm
          rcases Nat.lt_succ_iff_lt_or_eq.mp hm with h | h
          · exact hmin m h
          · subst h
            exact not_lt.mp hlt
        · exact hstrict

/-- C1: For every successful encoding (each candidate builds without error
and with zero empty modules), the mask loop of `QRCode.encode` stores the
symbol of the mask with the lowest total penalty among the 8 candidates, and
of the masks attaining that lowest penalty it stores the one with the lowest
index (every earlier mask scores strictly higher). -/
theorem maskLoop_picks_lowest_penalty (build : Nat → Except String symbol)
    (pscore : symbol → Int) (syms : Nat → symbol)
    (hb : ∀ m, build m = Except.ok (syms m))
    (he : ∀ m, (syms m).numEmptyModules = 0) :
    ∃ mb, mb < 8 ∧
      maskLoop build pscore = some (some (syms mb, mb), pscore (syms mb)) ∧
      (∀ m, m < 8 → pscore (syms mb) ≤ pscore (syms m)) ∧
      (∀ m, m < mb → pscore (syms mb) < pscore (syms m)) := by
  rcases maskFold_inv build pscore syms hb he 8 with ⟨h0, _⟩ | ⟨mb, hmb, hst, hmin, hstrict⟩
  · exact absurd h0 (by omega)
  · exact ⟨mb, hmb, hst, hmin, hstrict⟩

/-- A concrete family of candidate symbols for the C1 witness; the penalty
read off below is minimal at masks 3 and 5, so index 3 must win. -/
def witSyms (m : Nat) : symbol :=
  { symbolSize := if m = 3 ∨ m = 5 then 1 else m + 2
    quietZoneSize := 0
    size := 0
    grid := []
    numEmptyModules := 0 }

/-- Builder for the C1 witness. -/
def witBuild (m : Nat) : Except String symbol := Except.ok (witSyms m)

/-- Penalty for the C1 witness: the stored `symbolSize`. -/
def witPscore (s : symbol) : Int := (s.symbolSize : Int)

/-- C1 witness: the mask-selection theorem applied to a concrete builder and
penalty function. -/
theorem maskLoop_picks_lowest_penalty_witness :
    ∃ mb, mb < 8 ∧
      maskLoop witBuild witPscore = some (some (witSyms mb, mb), witPscore (witSyms mb)) ∧
      (∀ m, m < 8 → witPscore (witSyms mb) ≤ witPscore (witSyms m)) ∧
      (∀ m, m < mb → witPscore (witSyms mb) < witPscore (witSyms m)) :=
  maskLoop_picks_lowest_penalty witBuild witPscore witSyms (fun _ => rfl) (fun _ => rfl)

/-! ## Padding fills exactly to `numDataBits`. -/

/-- Alternating pad codewords, `padCodeword i` first: the sequence the pad
loop emits from parity `i`. -/
def padSeqFrom : Nat → Nat → List Bool
  | _, 0 => []
  | i, m + 1 => padCodeword i ++ padSeqFrom (1 - i) m

/-- The spec's padding tail: 0xEC and 0x11 alternating, starting with
0xEC. -/
def padCodewordSeq (m : Nat) : List Bool := padSeqFrom 0 m

theorem padSeqFrom_length : ∀ (m i : Nat), (padSeqFrom i m).length = 8 * m := by
  intro m
  induction m with
  | zero => intro i; rfl
  | succ m ih =>
    intro i
    simp only [padSeqFrom, List.length_append, padCodeword_length, ih]
    omega

/-- The pad loop appends exactly `m` alternating pad codewords when `m`
codewords fit exactly. -/
theorem padLoop_exact (nd : Nat) :
    ∀ (m i : Nat) (d : List Bool), d.length + 8 * m = nd →
      padLoop nd i d = d ++ padSeqFrom i m := by
  intro m
  induction m with
  | zero =>
    intro i d h
    rw [padLoop_unfold]
    rw [if_neg (by omega)]
    simp [padSeqFrom]
  | succ m ih =>
    intro i d h
    rw [padLoop_unfold]
    rw [if_pos (by omega)]
    rw [ih (1 - i) (d ++ padCodeword i) (by simp [padCodeword_length]; omega)]
    simp [padSeqFrom, List.append_assoc]

/-- `addPadding` never hits its length-check panic when `numDataBits` is a
multiple of 8 at least the buffer length, and produces exactly the zero bits
to the codeword boundary followed by the alternating pad codewords. -/
theorem addPadding_formula (ver : qrCodeVersion) (data : List Bool)
    (h8 : 8 ∣ ver.numDataBits) (hle : data.length ≤ ver.numDataBits) :
    addPadding ver data =
      some (data ++ List.replicate ((8 - data.length % 8) % 8) false ++
        padSeqFrom 0 ((ver.numDataBits -
          (data.length + (8 - data.length % 8) % 8)) / 8)) := by
  unfold addPadding
  by_cases heq : data.length = ver.numDataBits
  · rw [if_pos heq]
    have hk : (8 - data.length % 8) % 8 = 0 := by omega
    rw [hk]
    have hm0 : (ver.numDataBits - (data.length + 0)) / 8 = 0 := by omega
    rw [hm0]
    simp [padSeqFrom]
  · rw [if_neg heq]
    have hpadbits : ver.numBitsToPadToCodeword data.length = (8 - data.length % 8) % 8 := by
      unfold qrCodeVersion.numBitsToPadToCodeword
      rw [if_neg heq]
    rw [hpadbits]
    show (if (padLoop ver.numDataBits 0
            (data ++ List.replicate ((8 - data.length % 8) % 8) false)).length ≠
            ver.numDataBits then none
          else some (padLoop ver.numDataBits 0
            (data ++ List.replicate ((8 - data.length % 8) % 8) false))) = _
    have hexact : (data ++ List.replicate ((8 - data.length % 8) % 8) false).length +
        8 * ((ver.numDataBits - (data.length + (8 - data.length % 8) % 8)) / 8) =
        ver.numDataBits := by
      simp only [List.length_append, List.length_replicate]
      omega
    rw [padLoop_exact _ _ 0 _ hexact]
    have hlen : ((data ++ List.replicate ((8 - data.length % 8) % 8) false) ++
        padSeqFrom 0 ((ver.numDataBits -
          (data.length + (8 - data.length % 8) % 8)) / 8)).length = ver.numDataBits := by
      simp only [List.length_append, List.length_replicate, padSeqFrom_length]
      omega
    rw [if_neg (by rw [hlen]; exact fun hc => hc rfl)]

/-- C4: after the terminator bits, `addPadding` first appends zero bits up to
the next multiple of 8, then appends the pad codewords 0xEC and 0x11
alternately starting with 0xEC until the buffer length equals the version's
`numDataBits` exactly; a buffer already of length `numDataBits` is left
unchanged.  (`numDataBits` is a whole number of codewords, hence the
divisibility hypothesis.) -/
theorem addPadding_pads_exactly (ver : qrCodeVersion) (data : List Bool)
    (h8 : 8 ∣ ver.numDataBits) (hle : data.length ≤ ver.numDataBits) :
    ∃ r, addPadding ver data = some r ∧
      r = data ++ List.replicate ((8 - data.length % 8) % 8) false ++
        padCodewordSeq ((ver.numDataBits -
          (data.length + (8 - data.length % 8) % 8)) / 8) ∧
      r.length = ver.numDataBits ∧
      (data.length = ver.numDataBits → r = data) := by
  refine ⟨_, addPadding_formula ver data h8 hle, rfl, ?_, ?_⟩
  · simp only [List.length_append, List.length_replicate, padCodewordSeq, padSeqFrom_length]
    omega
  · intro heq
    have hk : (8 - data.length % 8) % 8 = 0 := by omega
    rw [hk]
    have hm : (ver.numDataBits - (data.length + 0)) / 8 = 0 := by omega
    rw [hm]
    simp [padCodewordSeq, padSeqFrom]

/-- C4 witness: the padding theorem at version 1-L (`numDataBits = 152`) on a
20-bit buffer. -/
theorem addPadding_pads_exactly_witness :
    ∃ r, addPadding (versionDescriptor .Low 1) (List.replicate 20 true) = some r ∧
      r = List.replicate 20 true ++ List.replicate ((8 - (List.replicate 20 true).length % 8) % 8) false ++
        padCodewordSeq (((versionDescriptor .Low 1).numDataBits -
          ((List.replicate 20 true).length + (8 - (List.replicate 20 true).length % 8) % 8)) / 8) ∧
      r.length = (versionDescriptor .Low 1).numDataBits ∧
      ((List.replicate 20 true).length = (versionDescriptor .Low 1).numDataBits →
        r = List.replicate 20 true) :=
  addPadding_pads_exactly (versionDescriptor .Low 1) (List.replicate 20 true)
    (by decide) (by decide)

/-! ## Invariant violations abort instead of returning errors. -/

/-- Once a pass of the mask loop panics, the fold stays panicked. -/
theorem maskFold_none (build : Nat → Except String symbol) (pscore : symbol → Int)
    (l : List Nat) :
    l.foldl (fun acc m => acc.bind (fun st => maskStep build pscore st m)) none = none := by
  induction l with
  | nil => rfl
  | cons a l ih => simpa using ih

/-- As long as every processed mask builds cleanly, the mask loop's fold has
not panicked. -/
theorem maskFold_prefix_some (build : Nat → Except String symbol) (pscore : symbol → Int)
    (n : Nat)
    (hgood : ∀ m', m' < n → ∃ s', build m' = Except.ok s' ∧ s'.numEmptyModules = 0) :
    ∃ st, (List.range n).foldl
      (fun acc m => acc.bind (fun st => maskStep build pscore st m))
      (some (none, 0)) = some st := by
  induction n with
  | zero => exact ⟨(none, 0), rfl⟩
  | succ n ih =>
    obtain ⟨st, hst⟩ := ih (fun m' hm' => hgood m' (Nat.lt_succ_of_lt hm'))
    rw [List.range_succ, List.foldl_append, hst]
    obtain ⟨s', hb', he'⟩ := hgood n (Nat.lt_succ_self n)
    obtain ⟨st1, p⟩ := st
    cases st1 with
    | none => exact ⟨(some (s', n), pscore s'), by simp [maskStep, hb', he']⟩
    | some b =>
      by_cases hp : pscore s' < p
      · exact ⟨(some (s', n), pscore s'), by simp [maskStep, hb', he', hp]⟩
      · exact ⟨(some b, p), by simp [maskStep, hb', he', hp]⟩

/-- The pad loop preserves the buffer length modulo 8. -/
theorem padLoop_mod8 (nd i : Nat) (d : List Bool) :
    (padLoop nd i d).length % 8 = d.length % 8 := by
  rw [padLoop_unfold]
  split
  · rw [padLoop_mod8 nd (1 - i) (d ++ padCodeword i)]
    simp [padCodeword_length]
  · rfl
termination_by nd - d.length
decreasing_by
  rename_i h
  have hlen : (d ++ padCodeword i).length = d.length + 8 := by
    simp [padCodeword_length]
  rw [hlen]
  omega

/-- If every mask before `m` builds cleanly but mask `m`'s candidate has a
non-zero count of empty modules, the whole mask loop panics. -/
theorem maskLoop_panics_on_bad_symbol (build : Nat → Except String symbol)
    (pscore : symbol → Int) (syms : Nat → symbol) (m : Nat) (s : symbol)
    (hm : m < 8)
    (hgood : ∀ m', m' < m → build m' = Except.ok (syms m') ∧ (syms m').numEmptyModules = 0)
    (hbm : build m = Except.ok s) (hem : s.numEmptyModules ≠ 0) :
    maskLoop build pscore = none := by
  obtain ⟨st, hst⟩ := maskFold_prefix_some build pscore m
    (fun m' hm' => ⟨syms m', (hgood m' hm').1, (hgood m' hm').2⟩)
  rw [maskLoop]
  rw [show (8 : Nat) = m + (8 - m) from by omega]
  rw [List.range_add, List.foldl_append, hst]
  obtain ⟨j, hj⟩ : ∃ j, 8 - m = j + 1 := ⟨8 - m - 1, by omega⟩
  rw [hj, List.range_succ_eq_map, List.map_cons, List.foldl_cons, Option.some_bind]
  have hstep : maskStep build pscore st (m + 0) = none := by
    rw [Nat.add_zero]
    simp only [maskStep, hbm]
    rw [if_pos hem]
  rw [hstep]
  exact maskFold_none build pscore _

/-- C7: internal invariant violations are panics, not recoverable errors:
`QRCode.encode` never returns an error value at all; a padding-length
mismatch aborts `QRCode.encode` with the padding panic; a candidate symbol
with a non-zero empty-module count panics the mask loop at that mask; and
the padding length check fires exactly when the (terminated) buffer exceeds
the version's data capacity. -/
theorem invariant_violations_panic :
    (∀ (q : QRCode) (ntb : Nat) (msg : String), q.encode ntb ≠ Res.err msg) ∧
    (∀ (q : QRCode) (ntb : Nat),
      addPadding q.version (addTerminatorBits q.data ntb) = none →
      q.encode ntb = Res.abort msgPaddingBug) ∧
    (∀ (build : Nat → Except String symbol) (pscore : symbol → Int)
      (syms : Nat → symbol) (m : Nat) (s : symbol), m < 8 →
      (∀ m', m' < m → build m' = Except.ok (syms m') ∧ (syms m').numEmptyModules = 0) →
      build m = Except.ok s → s.numEmptyModules ≠ 0 →
      maskLoop build pscore = none) ∧
    (∀ (ver : qrCodeVersion) (data : List Bool), ver.numDataBits < data.length →
      addPadding ver data = none) := by
  refine ⟨?_, ?_, maskLoop_panics_on_bad_symbol, ?_⟩
  · intro q ntb msg
    rw [QRCode.encode]
    cases hpad : addPadding q.version (addTerminatorBits q.data ntb) with
    | none => simp
    | some padded =>
      cases hml : maskLoop (fun m => buildRegularSymbol q.version m
          (encodeBlocks rsEncode q.version padded) q.margin) symbol.penaltyScore with
      | none => simp [hml]
      | some st =>
        obtain ⟨st1, p⟩ := st
        cases st1 with
        | none => simp [hml]
        | some b =>
          obtain ⟨s, mask⟩ := b
          simp [hml]
  · intro q ntb hpad
    rw [QRCode.encode, hpad]
  · intro ver data hlt
    rw [addPadding]
    rw [if_neg (by omega)]
    have hmod := padLoop_mod8 ver.numDataBits 0
      (data ++ List.replicate (ver.numBitsToPadToCodeword data.length) false)
    have hlen : ver.numDataBits <
        (data ++ List.replicate (ver.numBitsToPadToCodeword data.length) false).length := by
      simp only [List.length_append, List.length_replicate]
      omega
    have hstop : padLoop ver.numDataBits 0
        (data ++ List.replicate (ver.numBitsToPadToCodeword data.length) false) =
        data ++ List.replicate (ver.numBitsToPadToCodeword data.length) false := by
      rw [padLoop_unfold]
      rw [if_neg (by omega)]
    rw [if_pos]
    rw [hstop]
    omega

/-! ## Invalid forced versions abort; valid ones proceed. -/

/-- Whether a result is a returned error value. -/
def isErrRes : Res → Bool
  | .err _ => true
  | _ => false

/-- `QRCode.encode` can abort, but never with the invalid-version message of
`newWithForcedVersion`. -/
theorem encode_no_invalid_version_abort (q : QRCode) (ntb : Nat) :
    q.encode ntb ≠ Res.abort msgInvalidVersion := by
  rw [QRCode.encode]
  cases hpad : addPadding q.version (addTerminatorBits q.data ntb) with
  | none =>
    simp only [hpad]
    decide
  | some padded =>
    cases hml : maskLoop (fun m => buildRegularSymbol q.version m
        (encodeBlocks rsEncode q.version padded) q.margin) symbol.penaltyScore with
    | none =>
      simp only [hpad, hml]
      decide
    | some st =>
      obtain ⟨st1, p⟩ := st
      cases st1 with
      | none => simp [hpad, hml]
      | some b =>
        obtain ⟨s, mask⟩ := b
        simp [hpad, hml]

/-- C6 counterexample: at the concrete invalid version 0, the fixed-version
entry point aborts the process (`log.Fatalf`) with the invalid-version
message and does not return an error value, contradicting the claim that an
`InvalidVersion` error is returned to the caller. -/
theorem newWithForcedVersion_zero_aborts :
    newWithForcedVersion [72, 73] 0 RecoveryLevel.Low = Res.abort msgInvalidVersion ∧
    isErrRes (newWithForcedVersion [72, 73] 0 RecoveryLevel.Low) = false := by
  exact ⟨rfl, rfl⟩

/-- C6 (amended): `newWithForcedVersion` called with a version outside 1..40
aborts the process via `log.Fatalf` (modelled as `Res.abort`) instead of
returning an error value, while for versions in 1..40 it proceeds past the
version check (its result is never the invalid-version abort). -/
theorem newWithForcedVersion_version_check (content : List Nat) (v : Int)
    (level : RecoveryLevel) :
    if v < 1 ∨ 40 < v then
      newWithForcedVersion content v level = Res.abort msgInvalidVersion
    else
      newWithForcedVersion content v level ≠ Res.abort msgInvalidVersion := by
  split
  · rename_i h
    rw [newWithForcedVersion]
    rw [if_neg (by omega), if_neg (by omega), if_neg (by omega)]
  · rename_i h
    rw [newWithForcedVersion]
    by_cases h1 : 1 ≤ v ∧ v ≤ 9
    · rw [if_pos h1]
      rw [getQRCodeVersion, if_pos (by omega)]
      exact encode_no_invalid_version_abort _ _
    · by_cases h2 : 10 ≤ v ∧ v ≤ 26
      · rw [if_neg h1, if_pos h2]
        rw [getQRCodeVersion, if_pos (by omega)]
        exact encode_no_invalid_version_abort _ _
      · have h3 : 27 ≤ v ∧ v ≤ 40 := by omega
        rw [if_neg h1, if_neg h2, if_pos h3]
        rw [getQRCodeVersion, if_pos (by omega)]
        exact encode_no_invalid_version_abort _ _

/-! ## Version selection: classes in order, smallest admitting version. -/

/-- `find?` on an ascending `range'` returns the least element satisfying the
predicate. -/
theorem find?_range'_least (p : Nat → Bool) :
    ∀ (len s v : Nat), (List.range' s len).find? p = some v →
      p v = true ∧ s ≤ v ∧ v < s + len ∧ ∀ w, s ≤ w → w < v → p w = false := by
  intro len
  induction len with
  | zero =>
    intro s v h
    simp [List.range'] at h
  | succ len ih =>
    intro s v h
    rw [List.range'_succ] at h
    cases hps : p s with
    | false =>
      rw [List.find?_cons_of_neg _ (by simp [hps])] at h
      obtain ⟨hpv, hsv, hvlt, hmin⟩ := ih (s + 1) v h
      refine ⟨hpv, by omega, by omega, ?_⟩
      intro w hw hwv
      by_cases hws : w = s
      · rw [hws]
        exact hps
      · exact hmin w (by omega) hwv
    | true =>
      rw [List.find?_cons_of_pos _ hps] at h
      obtain rfl : s = v := by simpa using h
      exact ⟨hps, le_refl s, by omega, fun w hw hwv => absurd hwv (by omega)⟩

/-- `numDataBits` of a catalog descriptor. -/
theorem numDataBits_versionDescriptor (l : RecoveryLevel) (v : Nat) :
    (versionDescriptor l v).numDataBits = 8 * numDataCodewordsTable v l := by
  simp [versionDescriptor, qrCodeVersion.numDataBits]

/-- Setting the quiet zone does not touch the capacity. -/
theorem setQuietZoneSize_numDataBits (ver : qrCodeVersion) (s : Int) :
    (ver.setQuietZoneSize s).numDataBits = ver.numDataBits := by
  unfold qrCodeVersion.setQuietZoneSize
  split <;> rfl

/-- Setting the quiet zone does not touch the version number. -/
theorem setQuietZoneSize_version (ver : qrCodeVersion) (s : Int) :
    (ver.setQuietZoneSize s).version = ver.version := by
  unfold qrCodeVersion.setQuietZoneSize
  split <;> rfl

/-- `chooseQRCodeVersion` finds the smallest admitting version of the
class. -/
theorem chooseQRCodeVersion_some (lv : RecoveryLevel) (t : dataEncoderType) (n : Nat)
    (ver : qrCodeVersion) (h : chooseQRCodeVersion lv t n = some ver) :
    ∃ v, ver = versionDescriptor lv v ∧ t.minVersion ≤ v ∧ v ≤ t.maxVersion ∧
      n ≤ (versionDescriptor lv v).numDataBits ∧
      ∀ w, t.minVersion ≤ w → w ≤ t.maxVersion →
        n ≤ (versionDescriptor lv w).numDataBits → v ≤ w := by
  unfold chooseQRCodeVersion at h
  obtain ⟨v, hfind, hdesc⟩ := Option.map_eq_some'.mp h
  obtain ⟨hpv, hsv, hvlt, hmin⟩ := find?_range'_least _ _ _ _ hfind
  refine ⟨v, hdesc.symm, hsv, by omega, by simpa using hpv, ?_⟩
  intro w hw1 hw2 hwcap
  by_contra hlt
  have := hmin w hw1 (by omega)
  simp [hwcap] at this

/-- When `chooseQRCodeVersion` fails, no version of the class admits the
bits. -/
theorem chooseQRCodeVersion_none (lv : RecoveryLevel) (t : dataEncoderType) (n : Nat)
    (h : chooseQRCodeVersion lv t n = none) :
    ∀ w, t.minVersion ≤ w → w ≤ t.maxVersion →
      ¬ n ≤ (versionDescriptor lv w).numDataBits := by
  unfold chooseQRCodeVersion at h
  have hfind := Option.map_eq_none'.mp h
  intro w hw1 hw2 hcap
  have hmem : w ∈ List.range' t.minVersion (t.maxVersion + 1 - t.minVersion) := by
    rw [List.mem_range'_1]
    omega
  have := List.find?_eq_none.mp hfind w hmem
  simp [hcap] at this

/-- Options never change the stored content. -/
theorem applyOption_Content (q : QRCode) (o : QROption) :
    (applyOption q o).Content = q.Content := by
  cases o <;> rfl

/-- One step of `QRCode.Set`. -/
theorem setOptions_cons (q : QRCode) (o : QROption) (rest : List QROption) :
    setOptions q (o :: rest) = setOptions (applyOption q o) rest := rfl

/-- `QRCode.Set` never changes the stored content. -/
theorem setOptions_Content (opts : List QROption) :
    ∀ q : QRCode, (setOptions q opts).Content = q.Content := by
  induction opts with
  | nil => intro q; rfl
  | cons o rest ih =>
    intro q
    rw [setOptions_cons]
    rw [ih (applyOption q o), applyOption_Content]

/-- The mask loop over the modelled builder always completes and stores one
of the built candidates. -/
theorem maskLoop_built (ver : qrCodeVersion) (encoded : List Bool) (margin : Int) :
    ∃ mb p, mb < 8 ∧
      maskLoop (fun m => buildRegularSymbol ver m encoded margin) symbol.penaltyScore =
        some (some (builtSymbol ver mb encoded margin, mb), p) := by
  rcases maskFold_inv (fun m => buildRegularSymbol ver m encoded margin)
      symbol.penaltyScore (fun m => builtSymbol ver m encoded margin)
      (fun _ => rfl) (fun _ => rfl) 8 with ⟨h0, _⟩ | ⟨mb, hmb, hst, _, _⟩
  · exact absurd h0 (by omega)
  · exact ⟨mb, _, hmb, hst⟩

/-- When the version search succeeds with a catalog descriptor whose capacity
admits the encoded bits, `newCore` completes successfully and records the
chosen version number. -/
theorem newCore_ok (q : QRCode) (t : dataEncoderType) (encoded : List Bool)
    (lv : RecoveryLevel) (v : Nat)
    (hvs : versionSearch q.Content q.level = some (t, encoded, versionDescriptor lv v))
    (hlen : encoded.length ≤ (versionDescriptor lv v).numDataBits) :
    ∃ q', newCore q = Res.ok q' ∧ q'.VersionNumber = (v : Int) ∧
      ∃ mb enc, mb < 8 ∧ q'.symbol =
        some (builtSymbol ((versionDescriptor lv v).setQuietZoneSize q.QuitZoneSize)
          mb enc q.margin) := by
  rw [newCore, hvs]
  have h8 : 8 ∣ ((versionDescriptor lv v).setQuietZoneSize q.QuitZoneSize).numDataBits := by
    rw [setQuietZoneSize_numDataBits, numDataBits_versionDescriptor]
    exact ⟨_, rfl⟩
  have hle : (addTerminatorBits encoded
      ((versionDescriptor lv v).numTerminatorBitsRequired encoded.length)).length ≤
      ((versionDescriptor lv v).setQuietZoneSize q.QuitZoneSize).numDataBits := by
    rw [setQuietZoneSize_numDataBits]
    simp only [addTerminatorBits, List.length_append, List.length_replicate,
      qrCodeVersion.numTerminatorBitsRequired]
    omega
  obtain ⟨padded, hpad⟩ : ∃ r,
      addPadding ((versionDescriptor lv v).setQuietZoneSize q.QuitZoneSize)
        (addTerminatorBits encoded
          ((versionDescriptor lv v).numTerminatorBitsRequired encoded.length)) = some r :=
    ⟨_, addPadding_formula _ _ h8 hle⟩
  obtain ⟨mb, p, hmb, hml⟩ := maskLoop_built
    ((versionDescriptor lv v).setQuietZoneSize q.QuitZoneSize)
    (encodeBlocks rsEncode ((versionDescriptor lv v).setQuietZoneSize q.QuitZoneSize) padded)
    q.margin
  simp only [QRCode.encode]
  rw [hpad]
  dsimp only
  rw [hml]
  exact ⟨_, rfl, rfl, mb, _, hmb, rfl⟩

/-- Version `v` of class `t` admits the payload at level `lv`: it lies in the
class's range and its data capacity covers the class's encoding of the
payload. -/
def admitsIn (content : List Nat) (lv : RecoveryLevel) (t : dataEncoderType) (v : Nat) :
    Prop :=
  t.minVersion ≤ v ∧ v ≤ t.maxVersion ∧
    (dataEncode t content).length ≤ (versionDescriptor lv v).numDataBits

/-- Position of a class in the fixed V1-9, V10-26, V27-40 order. -/
def classIdx : dataEncoderType → Nat
  | .type1To9 => 0
  | .type10To26 => 1
  | .type27To40 => 2

/-- Unfolding of the class loop. -/
theorem versionSearchList_cons (content : List Nat) (lv : RecoveryLevel)
    (t : dataEncoderType) (rest : List dataEncoderType) :
    versionSearchList content lv (t :: rest) =
      match chooseQRCodeVersion lv t (dataEncode t content).length with
      | some v => some (t, dataEncode t content, v)
      | none => versionSearchList content lv rest := rfl

/-- The successful branch of the class loop: the stored version is the least
admitting one of its class, and every earlier class admits nothing. -/
theorem versionSearch_some_facts (content : List Nat) (opts : List QROption)
    (t : dataEncoderType) (ver : qrCodeVersion)
    (hvs : versionSearch content (setOptions (initQRCode content) opts).level =
      some (t, dataEncode t content, ver))
    (hc : chooseQRCodeVersion (setOptions (initQRCode content) opts).level t
      (dataEncode t content).length = some ver)
    (hearlier : ∀ t', classIdx t' < classIdx t →
      chooseQRCodeVersion (setOptions (initQRCode content) opts).level t'
        (dataEncode t' content).length = none) :
    (∃ q, New content opts = Res.ok q ∧ q.VersionNumber = (ver.version : Int)) ∧
    admitsIn content (setOptions (initQRCode content) opts).level t ver.version ∧
    (∀ v', admitsIn content (setOptions (initQRCode content) opts).level t v' →
      ver.version ≤ v') ∧
    (∀ t', classIdx t' < classIdx t →
      ∀ v', ¬ admitsIn content (setOptions (initQRCode content) opts).level t' v') := by
  obtain ⟨v, hverEq, hmin, hmax, hcap, hleast⟩ :=
    chooseQRCodeVersion_some _ _ _ _ hc
  subst hverEq
  refine ⟨?_, ⟨hmin, hmax, hcap⟩, ?_, ?_⟩
  · have hq0 : (setOptions (initQRCode content) opts).Content = content :=
      setOptions_Content opts _
    have hvs' : versionSearch (setOptions (initQRCode content) opts).Content
        (setOptions (initQRCode content) opts).level =
        some (t, dataEncode t content,
          versionDescriptor (setOptions (initQRCode content) opts).level v) := by
      rw [hq0]
      exact hvs
    obtain ⟨q', hok, hvn, _⟩ := newCore_ok _ t _ _ v hvs' hcap
    exact ⟨q', hok, hvn⟩
  · intro v' hv'
    exact hleast v' hv'.1 hv'.2.1 hv'.2.2
  · intro t' hlt v' hv'
    exact chooseQRCodeVersion_none _ _ _ (hearlier t' hlt) v' hv'.1 hv'.2.1 hv'.2.2

/-- C2: `New` tries the three version classes in the fixed order V1-V9,
V10-V26, V27-V40, re-encoding the payload for each class; within the first
class admitting the payload it picks the smallest version whose data capacity
at the requested level suffices (and succeeds, storing that version number);
when no version of any class admits the payload it fails with the
content-too-long error. -/
theorem New_tries_classes_in_order (content : List Nat) (opts : List QROption) :
    match versionSearch content (setOptions (initQRCode content) opts).level with
    | some (t, _, ver) =>
      (∃ q, New content opts = Res.ok q ∧ q.VersionNumber = (ver.version : Int)) ∧
      admitsIn content (setOptions (initQRCode content) opts).level t ver.version ∧
      (∀ v', admitsIn content (setOptions (initQRCode content) opts).level t v' →
        ver.version ≤ v') ∧
      (∀ t', classIdx t' < classIdx t →
        ∀ v', ¬ admitsIn content (setOptions (initQRCode content) opts).level t' v')
    | none =>
      New content opts = Res.err msgContentTooLong ∧
      ∀ t ∈ encoderTypes, ∀ v',
        ¬ admitsIn content (setOptions (initQRCode content) opts).level t v' := by
  cases hc1 : chooseQRCodeVersion (setOptions (initQRCode content) opts).level
      dataEncoderType.type1To9 (dataEncode dataEncoderType.type1To9 content).length with
  | some v1 =>
    have hvs : versionSearch content (setOptions (initQRCode content) opts).level =
        some (dataEncoderType.type1To9, dataEncode dataEncoderType.type1To9 content, v1) := by
      rw [versionSearch, encoderTypes, versionSearchList_cons, hc1]
    rw [hvs]
    exact versionSearch_some_facts content opts _ _ hvs hc1
      (fun t' hlt => absurd hlt (by cases t' <;> simp [classIdx]))
  | none =>
    cases hc2 : chooseQRCodeVersion (setOptions (initQRCode content) opts).level
        dataEncoderType.type10To26 (dataEncode dataEncoderType.type10To26 content).length with
    | some v2 =>
      have hvs : versionSearch content (setOptions (initQRCode content) opts).level =
          some (dataEncoderType.type10To26,
            dataEncode dataEncoderType.type10To26 content, v2) := by
        rw [versionSearch, encoderTypes, versionSearchList_cons, hc1]
        rw [versionSearchList_cons, hc2]
      rw [hvs]
      refine versionSearch_some_facts content opts _ _ hvs hc2 ?_
      intro t' hlt
      cases t' with
      | type1To9 => exact hc1
      | type10To26 => exact absurd hlt (by simp [classIdx])
      | type27To40 => exact absurd hlt (by simp [classIdx])
    | none =>
      cases hc3 : chooseQRCodeVersion (setOptions (initQRCode content) opts).level
          dataEncoderType.type27To40 (dataEncode dataEncoderType.type27To40 content).length with
      | some v3 =>
        have hvs : versionSearch content (setOptions (initQRCode content) opts).level =
            some (dataEncoderType.type27To40,
              dataEncode dataEncoderType.type27To40 content, v3) := by
          rw [versionSearch, encoderTypes, versionSearchList_cons, hc1]
          rw [versionSearchList_cons, hc2]
          rw [versionSearchList_cons, hc3]
        rw [hvs]
        refine versionSearch_some_facts content opts _ _ hvs hc3 ?_
        intro t' hlt
        cases t' with
        | type1To9 => exact hc1
        | type10To26 => exact hc2
        | type27To40 => exact absurd hlt (by simp [classIdx])
      | none =>
        have hvs : versionSearch content (setOptions (initQRCode content) opts).level =
            none := by
          rw [versionSearch, encoderTypes, versionSearchList_cons, hc1]
          rw [versionSearchList_cons, hc2]
          rw [versionSearchList_cons, hc3]
          rfl
        rw [hvs]
        constructor
        · have hq0 : (setOptions (initQRCode content) opts).Content = content :=
            setOptions_Content opts _
          show newCore (setOptions (initQRCode content) opts) = Res.err msgContentTooLong
          rw [newCore, hq0, hvs]
        · intro t ht v'
          intro hv'
          have hnone : chooseQRCodeVersion (setOptions (initQRCode content) opts).level t
              (dataEncode t content).length = none := by
            cases t with
            | type1To9 => exact hc1
            | type10To26 => exact hc2
            | type27To40 => exact hc3
          exact chooseQRCodeVersion_none _ _ _ hnone v' hv'.1 hv'.2.1 hv'.2.2

/-! ## ContentTooLong is decided at the requested level, not at level L. -/

/-- `toBits` always emits exactly `n` bits. -/
theorem toBits_length : ∀ (n v : Nat), (toBits n v).length = n := by
  intro n
  induction n with
  | zero => intro v; rfl
  | succ n ih =>
    intro v
    rw [toBits]
    simp [ih]

/-- Byte-mode payload length: 8 bits per byte. -/
theorem encodeByte_length : ∀ c : List Nat, (encodeByte c).length = 8 * c.length := by
  intro c
  induction c with
  | nil => rfl
  | cons b rest ih =>
    rw [encodeByte, List.flatMap_cons]
    rw [encodeByte] at ih
    simp only [List.length_append, toBits_length, ih, List.length_cons]
    omega

/-- Length of a byte-mode encoding: mode indicator, character count,
payload. -/
theorem dataEncode_byte_length (t : dataEncoderType) (c : List Nat)
    (hm : analyzeMode c = .byteMode) :
    (dataEncode t c).length = 4 + charCountBits t .byteMode + 8 * c.length := by
  simp only [dataEncode, hm, modeIndicator]
  simp only [List.length_append, toBits_length, encodeByte_length]

/-- A payload of 2000 'a' bytes is encoded in byte mode. -/
theorem analyzeMode_bytes2000 : analyzeMode (List.replicate 2000 97) = .byteMode := by
  have hmem : (97 : Nat) ∈ List.replicate 2000 97 :=
    List.mem_replicate.mpr ⟨by decide, rfl⟩
  have hnum : (List.replicate 2000 97).all isNumericByte = false := by
    rw [List.all_eq_false]
    exact ⟨97, hmem, by decide⟩
  have halpha : (List.replicate 2000 97).all isAlphanumericByte = false := by
    rw [List.all_eq_false]
    exact ⟨97, hmem, by decide⟩
  rw [analyzeMode, hnum, halpha]
  rfl

/-- C5 counterexample: 2000 'a' bytes fit the byte-mode capacity of version
40 at level L, yet `New` at level `Highest` returns the content-too-long
error — the error is decided at the requested level, not at level L. -/
theorem contentTooLong_at_high_level_despite_fitting_V40L :
    (dataEncode dataEncoderType.type27To40 (List.replicate 2000 97)).length ≤
      (versionDescriptor RecoveryLevel.Low 40).numDataBits ∧
    New (List.replicate 2000 97) [QROption.level RecoveryLevel.Highest] =
      Res.err msgContentTooLong := by
  have hmode := analyzeMode_bytes2000
  have hlen1 : (dataEncode dataEncoderType.type1To9 (List.replicate 2000 97)).length =
      16012 := by
    rw [dataEncode_byte_length _ _ hmode, List.length_replicate]
    decide
  have hlen2 : (dataEncode dataEncoderType.type10To26 (List.replicate 2000 97)).length =
      16020 := by
    rw [dataEncode_byte_length _ _ hmode, List.length_replicate]
    decide
  have hlen3 : (dataEncode dataEncoderType.type27To40 (List.replicate 2000 97)).length =
      16020 := by
    rw [dataEncode_byte_length _ _ hmode, List.length_replicate]
    decide
  constructor
  · rw [hlen3]
    decide
  · have hvs : versionSearch (List.replicate 2000 97) RecoveryLevel.Highest = none := by
      rw [versionSearch, encoderTypes, versionSearchList_cons, hlen1]
      rw [show chooseQRCodeVersion RecoveryLevel.Highest dataEncoderType.type1To9 16012 =
        none from by decide]
      dsimp only
      rw [versionSearchList_cons, hlen2]
      rw [show chooseQRCodeVersion RecoveryLevel.Highest dataEncoderType.type10To26 16020 =
        none from by decide]
      dsimp only
      rw [versionSearchList_cons, hlen3]
      rw [show chooseQRCodeVersion RecoveryLevel.Highest dataEncoderType.type27To40 16020 =
        none from by decide]
      rfl
    show newCore (setOptions (initQRCode (List.replicate 2000 97))
      [QROption.level RecoveryLevel.Highest]) = Res.err msgContentTooLong
    have hcont : (setOptions (initQRCode (List.replicate 2000 97))
        [QROption.level RecoveryLevel.Highest]).Content = List.replicate 2000 97 := rfl
    have hlvl : (setOptions (initQRCode (List.replicate 2000 97))
        [QROption.level RecoveryLevel.Highest]).level = RecoveryLevel.Highest := rfl
    simp only [newCore, hcont, hlvl, hvs]

/-- C5 (amended): `New` returns the content-too-long error exactly when no
version of any class admits the payload at the **requested** recovery level;
a payload that fits version 40 at level L can still fail at a higher level,
as the counterexample shows. -/
theorem New_contentTooLong_iff (content : List Nat) (opts : List QROption) :
    New content opts = Res.err msgContentTooLong ↔
      ∀ t ∈ encoderTypes, ∀ v',
        ¬ admitsIn content (setOptions (initQRCode content) opts).level t v' := by
  constructor
  · intro herr
    cases hc1 : chooseQRCodeVersion (setOptions (initQRCode content) opts).level
        dataEncoderType.type1To9 (dataEncode dataEncoderType.type1To9 content).length with
    | some v1 =>
      exfalso
      have hvs : versionSearch content (setOptions (initQRCode content) opts).level =
          some (dataEncoderType.type1To9,
            dataEncode dataEncoderType.type1To9 content, v1) := by
        rw [versionSearch, encoderTypes, versionSearchList_cons, hc1]
      obtain ⟨⟨q, hok, _⟩, _, _, _⟩ := versionSearch_some_facts content opts _ _ hvs hc1
        (fun t' hlt => absurd hlt (by cases t' <;> simp [classIdx]))
      rw [hok] at herr
      exact Res.noConfusion herr
    | none =>
      cases hc2 : chooseQRCodeVersion (setOptions (initQRCode content) opts).level
          dataEncoderType.type10To26
          (dataEncode dataEncoderType.type10To26 content).length with
      | some v2 =>
        exfalso
        have hvs : versionSearch content (setOptions (initQRCode content) opts).level =
            some (dataEncoderType.type10To26,
              dataEncode dataEncoderType.type10To26 content, v2) := by
          rw [versionSearch, encoderTypes, versionSearchList_cons, hc1]
          rw [versionSearchList_cons, hc2]
        obtain ⟨⟨q, hok, _⟩, _, _, _⟩ := versionSearch_some_facts content opts _ _ hvs hc2
          (fun t' hlt => by
            cases t' with
            | type1To9 => exact hc1
            | type10To26 => exact absurd hlt (by simp [classIdx])
            | type27To40 => exact absurd hlt (by simp [classIdx]))
        rw [hok] at herr
        exact Res.noConfusion herr
      | none =>
        cases hc3 : chooseQRCodeVersion (setOptions (initQRCode content) opts).level
            dataEncoderType.type27To40
            (dataEncode dataEncoderType.type27To40 content).length with
        | some v3 =>
          exfalso
          have hvs : versionSearch content (setOptions (initQRCode content) opts).level =
              some (dataEncoderType.type27To40,
                dataEncode dataEncoderType.type27To40 content, v3) := by
            rw [versionSearch, encoderTypes, versionSearchList_cons, hc1]
            rw [versionSearchList_cons, hc2]
            rw [versionSearchList_cons, hc3]
          obtain ⟨⟨q, hok, _⟩, _, _, _⟩ := versionSearch_some_facts content opts _ _ hvs hc3
            (fun t' hlt => by
              cases t' with
              | type1To9 => exact hc1
              | type10To26 => exact hc2
              | type27To40 => exact absurd hlt (by simp [classIdx]))
          rw [hok] at herr
          exact Res.noConfusion herr
        | none =>
          intro t ht v' hv'
          have hnone : chooseQRCodeVersion (setOptions (initQRCode content) opts).level t
              (dataEncode t content).length = none := by
            cases t with
            | type1To9 => exact hc1
            | type10To26 => exact hc2
            | type27To40 => exact hc3
          exact chooseQRCodeVersion_none _ _ _ hnone v' hv'.1 hv'.2.1 hv'.2.2
  · intro hall
    have hchoose : ∀ t ∈ encoderTypes,
        chooseQRCodeVersion (setOptions (initQRCode content) opts).level t
          (dataEncode t content).length = none := by
      intro t ht
      cases hc : chooseQRCodeVersion (setOptions (initQRCode content) opts).level t
          (dataEncode t content).length with
      | none => rfl
      | some ver =>
        exfalso
        obtain ⟨v, _, hmin, hmax, hcap, _⟩ := chooseQRCodeVersion_some _ _ _ _ hc
        exact hall t ht v ⟨hmin, hmax, hcap⟩
    have hvs : versionSearch content (setOptions (initQRCode content) opts).level =
        none := by
      rw [versionSearch, encoderTypes, versionSearchList_cons,
        hchoose dataEncoderType.type1To9 (by simp [encoderTypes])]
      rw [versionSearchList_cons,
        hchoose dataEncoderType.type10To26 (by simp [encoderTypes])]
      rw [versionSearchList_cons,
        hchoose dataEncoderType.type27To40 (by simp [encoderTypes])]
      rfl
    have hcont : (setOptions (initQRCode content) opts).Content = content :=
      setOptions_Content opts _
    show newCore (setOptions (initQRCode content) opts) = Res.err msgContentTooLong
    simp only [newCore, hcont, hvs]

/-! ## The Version option has no effect on the produced encoding. -/

/-- Applying options to a record that differs only in `VersionNumber` yields
a record that still differs at most in `VersionNumber`: no option reads the
field. -/
theorem setOptions_VersionNumber_absorbed :
    ∀ (opts : List QROption) (q : QRCode) (v : Int),
      ∃ w, setOptions { q with VersionNumber := v } opts =
        { setOptions q opts with VersionNumber := w } := by
  intro opts
  induction opts with
  | nil => intro q v; exact ⟨v, rfl⟩
  | cons o rest ih =>
    intro q v
    rw [setOptions_cons, setOptions_cons]
    cases o with
    | width u => exact ih (applyOption q (QROption.width u)) v
    | height u => exact ih (applyOption q (QROption.height u)) v
    | margin u => exact ih (applyOption q (QROption.margin u)) v
    | quitZoneSize u => exact ih (applyOption q (QROption.quitZoneSize u)) v
    | level u => exact ih (applyOption q (QROption.level u)) v
    | version u =>
      exact ⟨(setOptions (applyOption q (QROption.version u)) rest).VersionNumber, rfl⟩

/-- `newCore` never reads the incoming `VersionNumber` field: it is
overwritten with the chosen version before anything else uses the record. -/
theorem newCore_VersionNumber_irrelevant (q : QRCode) (v : Int) :
    newCore { q with VersionNumber := v } = newCore q := by
  cases q
  rfl

/-- C10: the public `Version(v)` option has no effect on `New`: inserting it
anywhere among the options yields the same result — same chosen version
number, mask and bitmap — because `New` unconditionally overwrites
`VersionNumber` with the automatically chosen version. -/
theorem Version_option_no_effect (content : List Nat) (opts1 opts2 : List QROption)
    (v : Int) :
    New content (opts1 ++ QROption.version v :: opts2) = New content (opts1 ++ opts2) := by
  have h1 : setOptions (initQRCode content) (opts1 ++ QROption.version v :: opts2) =
      setOptions { setOptions (initQRCode content) opts1 with VersionNumber := v } opts2 := by
    unfold setOptions
    rw [List.foldl_append, List.foldl_cons]
    rfl
  have h2 : setOptions (initQRCode content) (opts1 ++ opts2) =
      setOptions (setOptions (initQRCode content) opts1) opts2 := by
    unfold setOptions
    rw [List.foldl_append]
  show newCore (setOptions (initQRCode content) (opts1 ++ QROption.version v :: opts2)) =
    newCore (setOptions (initQRCode content) (opts1 ++ opts2))
  rw [h1, h2]
  obtain ⟨w, hw⟩ :=
    setOptions_VersionNumber_absorbed opts2 (setOptions (initQRCode content) opts1) v
  rw [hw]
  exact newCore_VersionNumber_irrelevant _ w

/-! ## Encoding is deterministic. -/

/-- C9: `New` is a pure function: two calls with the same content, level and
options produce identical results — same chosen version, same mask, and a
bit-for-bit identical bitmap (indeed equal records). -/
theorem New_deterministic (content : List Nat) (opts : List QROption) (q q' : QRCode)
    (h : New content opts = Res.ok q) (h' : New content opts = Res.ok q') :
    q.VersionNumber = q'.VersionNumber ∧ q.mask = q'.mask ∧
      Option.map symbol.bitmap q.symbol = Option.map symbol.bitmap q'.symbol ∧
      q = q' := by
  rw [h] at h'
  injection h' with hq
  subst hq
  exact ⟨rfl, rfl, rfl, rfl⟩

/-- The value of a successful result. -/
def unwrapOk (r : Res) : QRCode :=
  match r with
  | Res.ok q => q
  | _ => initQRCode []

/-- The record `New` produces for the one-digit payload "1" with default
options. -/
def detWitnessQ : QRCode := unwrapOk (New [49] [])

set_option maxRecDepth 100000 in
set_option maxHeartbeats 8000000 in
/-- Encoding the payload "1" with default options succeeds (computed by
reduction). -/
theorem detWitnessQ_ok : New [49] [] = Res.ok detWitnessQ := by rfl

/-- C9 witness: the determinism theorem applied to the concrete encoding of
"1", both hypotheses discharged by the computed run. -/
theorem New_deterministic_witness :
    detWitnessQ.VersionNumber = detWitnessQ.VersionNumber ∧
      detWitnessQ.mask = detWitnessQ.mask ∧
      Option.map symbol.bitmap detWitnessQ.symbol =
        Option.map symbol.bitmap detWitnessQ.symbol ∧
      detWitnessQ = detWitnessQ :=
  New_deterministic [49] [] detWitnessQ detWitnessQ detWitnessQ_ok detWitnessQ_ok

/-! ## Quiet zone: default size 4 and light outer rings. -/

/-- A successful version search comes from its class's chooser. -/
theorem versionSearch_some_inv (content : List Nat) (lv : RecoveryLevel)
    (t : dataEncoderType) (e : List Bool) (ver : qrCodeVersion)
    (h : versionSearch content lv = some (t, e, ver)) :
    e = dataEncode t content ∧
      chooseQRCodeVersion lv t (dataEncode t content).length = some ver := by
  rw [versionSearch, encoderTypes] at h
  cases hc1 : chooseQRCodeVersion lv dataEncoderType.type1To9
      (dataEncode dataEncoderType.type1To9 content).length with
  | some v1 =>
    rw [versionSearchList_cons, hc1] at h
    obtain ⟨rfl, rfl, rfl⟩ : dataEncoderType.type1To9 = t ∧
        dataEncode dataEncoderType.type1To9 content = e ∧ v1 = ver := by
      have := h
      simp at this
      exact ⟨this.1.symm ▸ rfl, this.2.1.symm ▸ rfl, this.2.2⟩
    exact ⟨rfl, hc1⟩
  | none =>
    rw [versionSearchList_cons, hc1] at h
    dsimp only at h
    cases hc2 : chooseQRCodeVersion lv dataEncoderType.type10To26
        (dataEncode dataEncoderType.type10To26 content).length with
    | some v2 =>
      rw [versionSearchList_cons, hc2] at h
      obtain ⟨rfl, rfl, rfl⟩ : dataEncoderType.type10To26 = t ∧
          dataEncode dataEncoderType.type10To26 content = e ∧ v2 = ver := by
        have := h
        simp at this
        exact ⟨this.1.symm ▸ rfl, this.2.1.symm ▸ rfl, this.2.2⟩
      exact ⟨rfl, hc2⟩
    | none =>
      rw [versionSearchList_cons, hc2] at h
      dsimp only at h
      cases hc3 : chooseQRCodeVersion lv dataEncoderType.type27To40
          (dataEncode dataEncoderType.type27To40 content).length with
      | some v3 =>
        rw [versionSearchList_cons, hc3] at h
        obtain ⟨rfl, rfl, rfl⟩ : dataEncoderType.type27To40 = t ∧
            dataEncode dataEncoderType.type27To40 content = e ∧ v3 = ver := by
          have := h
          simp at this
          exact ⟨this.1.symm ▸ rfl, this.2.1.symm ▸ rfl, this.2.2⟩
        exact ⟨rfl, hc3⟩
      | none =>
        rw [versionSearchList_cons, hc3] at h
        simp [versionSearchList] at h

/-- The emitted bitmap is square with side `size`. -/
theorem bitmap_length (s : symbol) : s.bitmap.length = s.size := by
  simp [symbol.bitmap]

/-- Every bitmap row has length `size`. -/
theorem bitmap_row_length (s : symbol) :
    ∀ row ∈ s.bitmap, row.length = s.size := by
  intro row hrow
  rw [symbol.bitmap] at hrow
  obtain ⟨y, _, rfl⟩ := List.mem_map.mp hrow
  simp

/-- The built symbol's size is the symbol size plus the quiet zone on both
sides. -/
theorem builtSymbol_size (ver : qrCodeVersion) (mask : Nat) (encoded : List Bool)
    (margin : Int) :
    (builtSymbol ver mask encoded margin).size =
      (builtSymbol ver mask encoded margin).symbolSize +
        2 * (builtSymbol ver mask encoded margin).quietZoneSize := rfl

/-- Any bitmap cell of the quiet ring — the outer `quietZoneSize` rings — is
light. -/
theorem bitmap_quiet_ring (s : symbol) (y x : Nat)
    (hring : x < s.quietZoneSize ∨ y < s.quietZoneSize ∨
      s.quietZoneSize + s.symbolSize ≤ x ∨ s.quietZoneSize + s.symbolSize ≤ y) :
    (s.bitmap.getD y []).getD x false = false := by
  by_cases hy : y < s.size
  · have hrow : s.bitmap.getD y [] =
        (List.range s.size).map (fun x => if s.quietZoneSize ≤ x ∧
          x < s.quietZoneSize + s.symbolSize ∧ s.quietZoneSize ≤ y ∧
          y < s.quietZoneSize + s.symbolSize
        then (s.grid.getD (y - s.quietZoneSize) []).getD (x - s.quietZoneSize) false
        else false) := by
      rw [symbol.bitmap, List.getD_eq_getElem?_getD, List.getElem?_map,
        List.getElem?_range hy]
      rfl
    rw [hrow]
    by_cases hx : x < s.size
    · rw [List.getD_eq_getElem?_getD, List.getElem?_map, List.getElem?_range hx]
      have hnot : ¬ (s.quietZoneSize ≤ x ∧ x < s.quietZoneSize + s.symbolSize ∧
          s.quietZoneSize ≤ y ∧ y < s.quietZoneSize + s.symbolSize) := by
        rcases hring with h | h | h | h <;> (intro hc; omega)
      simp [hnot]
    · rw [List.getD_eq_default]
      simp only [List.length_map, List.length_range]
      omega
  · rw [List.getD_eq_default s.bitmap []
      (show s.bitmap.length ≤ y by rw [bitmap_length]; omega)]
    rfl

/-- C8: with default options the quiet zone is 4, the emitted bitmap is a
square of side `symbolSize + 2*4`, and — for every built symbol, whatever its
quiet-zone size Q — the Q outermost rings of the bitmap are entirely
light. -/
theorem quiet_zone_framing (content : List Nat) :
    (match New content [] with
     | Res.ok q =>
       ∃ s, q.symbol = some s ∧ s.quietZoneSize = 4 ∧
         s.bitmap.length = s.symbolSize + 2 * 4 ∧
         ∀ row ∈ s.bitmap, row.length = s.symbolSize + 2 * 4
     | _ => True) ∧
    (∀ (ver : qrCodeVersion) (mask : Nat) (encoded : List Bool) (margin : Int)
      (y x : Nat),
      (x < (builtSymbol ver mask encoded margin).quietZoneSize ∨
       y < (builtSymbol ver mask encoded margin).quietZoneSize ∨
       (builtSymbol ver mask encoded margin).quietZoneSize +
         (builtSymbol ver mask encoded margin).symbolSize ≤ x ∨
       (builtSymbol ver mask encoded margin).quietZoneSize +
         (builtSymbol ver mask encoded margin).symbolSize ≤ y) →
      (((builtSymbol ver mask encoded margin).bitmap.getD y []).getD x false) = false) := by
  constructor
  · cases hvs : versionSearch content RecoveryLevel.Low with
    | none =>
      have hnew : New content [] = Res.err msgContentTooLong := by
        show newCore (setOptions (initQRCode content) []) = Res.err msgContentTooLong
        have hcont : (setOptions (initQRCode content) []).Content = content := rfl
        have hlvl : (setOptions (initQRCode content) []).level = RecoveryLevel.Low := rfl
        simp only [newCore, hcont, hlvl, hvs]
      rw [hnew]
      trivial
    | some tri =>
      obtain ⟨t, e, ver0⟩ := tri
      obtain ⟨he, hc⟩ := versionSearch_some_inv content RecoveryLevel.Low t e ver0 hvs
      obtain ⟨v, hEq, _, _, hcap, _⟩ := chooseQRCodeVersion_some _ _ _ _ hc
      subst he
      subst hEq
      have hvs' : versionSearch (setOptions (initQRCode content) []).Content
          (setOptions (initQRCode content) []).level =
          some (t, dataEncode t content, versionDescriptor RecoveryLevel.Low v) := hvs
      obtain ⟨q', hok, _, mb, enc, hmb, hsym⟩ :=
        newCore_ok (setOptions (initQRCode content) []) t _ _ v hvs' hcap
      have hnew : New content [] = Res.ok q' := hok
      rw [hnew]
      refine ⟨_, hsym, rfl, ?_, ?_⟩
      · rw [bitmap_length]
        rfl
      · intro row hrow
        rw [bitmap_row_length _ row hrow]
        rfl
  · intro ver mask encoded margin y x hring
    exact bitmap_quiet_ring _ y x hring

/-! ## Block interleaving emits data codewords, then EC codewords, then the
remainder bits. -/

/-- The chunking worker ignores the fuel once it bounds the length. -/
theorem chunkAux_congr : ∀ (f g : Nat) (l : List Bool),
    l.length ≤ f → l.length ≤ g → chunkAux f l = chunkAux g l := by
  intro f
  induction f with
  | zero =>
    intro g l hf hg
    have hl : l = [] := List.length_eq_zero.mp (by omega)
    subst hl
    cases g <;> rfl
  | succ f' ih =>
    intro g l hf hg
    cases l with
    | nil => cases g <;> rfl
    | cons a l' =>
      cases g with
      | zero => exact absurd hg (by simp)
      | succ g' =>
        show (a :: l').take 8 :: chunkAux f' ((a :: l').drop 8) =
          (a :: l').take 8 :: chunkAux g' ((a :: l').drop 8)
        congr 1
        refine ih g' _ ?_ ?_ <;>
          · simp only [List.length_drop, List.length_cons] at hf hg ⊢
            omega

/-- The unfolding equation of `chunk8` on a non-empty list. -/
theorem chunk8_cons (a : Bool) (l : List Bool) :
    chunk8 (a :: l) = (a :: l).take 8 :: chunk8 ((a :: l).drop 8) := by
  show chunkAux (l.length + 1) (a :: l) = _
  show (a :: l).take 8 :: chunkAux l.length ((a :: l).drop 8) = _
  congr 1
  refine chunkAux_congr _ _ _ ?_ ?_ <;>
    · simp only [List.length_drop, List.length_cons]
      omega

/-- The codewords of a bit sequence whose length is a whole number of
codewords: group `c` is the 8-bit slice at offset `8*c`. -/
theorem chunk8_getElem? : ∀ (c : Nat) (l : List Bool), 8 ∣ l.length →
    (chunk8 l)[c]? = if 8 * c < l.length then some ((l.drop (8 * c)).take 8) else none := by
  intro c
  induction c with
  | zero =>
    intro l h8
    cases l with
    | nil => rfl
    | cons a l' =>
      rw [chunk8_cons]
      simp
  | succ c ih =>
    intro l h8
    cases l with
    | nil => rfl
    | cons a l' =>
      have hlen8 : 8 ≤ (a :: l').length := by
        rcases h8 with ⟨k, hk⟩
        simp only [List.length_cons] at hk ⊢
        omega
      rw [chunk8_cons, List.getElem?_cons_succ]
      rw [ih ((a :: l').drop 8) (by simp only [List.length_drop]; omega)]
      rw [List.drop_drop]
      have hcond : 8 * c < ((a :: l').drop 8).length ↔ 8 * (c + 1) < (a :: l').length := by
        simp only [List.length_drop]
        omega
      have harith : (8 : Nat) + 8 * c = 8 * (c + 1) := by omega
      rw [harith]
      by_cases hc : 8 * (c + 1) < (a :: l').length
      · rw [if_pos (hcond.mpr hc), if_pos hc]
      · rw [if_neg (fun hx => hc (hcond.mp hx)), if_neg hc]

/-- Number of codeword groups, by bounded recursion on the length. -/
theorem chunk8_length_aux : ∀ (n : Nat) (l : List Bool), l.length ≤ n →
    8 ∣ l.length → (chunk8 l).length = l.length / 8 := by
  intro n
  induction n with
  | zero =>
    intro l hle h8
    have hl : l = [] := List.length_eq_zero.mp (by omega)
    subst hl
    rfl
  | succ n ih =>
    intro l hle h8
    cases l with
    | nil => rfl
    | cons a l' =>
      obtain ⟨k, hk⟩ := h8
      simp only [List.length_cons] at hk
      simp only [List.length_cons] at hle
      have hlen8 : 8 ≤ l'.length + 1 := by omega
      rw [chunk8_cons]
      rw [List.length_cons]
      rw [ih ((a :: l').drop 8)
        (by simp only [List.length_drop, List.length_cons]; omega)
        (by simp only [List.length_drop, List.length_cons]
            exact ⟨k - 1, by omega⟩)]
      simp only [List.length_drop, List.length_cons]
      omega

/-- Number of codeword groups of a whole-codeword bit sequence. -/
theorem chunk8_length (l : List Bool) (h8 : 8 ∣ l.length) :
    (chunk8 l).length = l.length / 8 :=
  chunk8_length_aux l.length l (le_refl _) h8

/-- Largest codeword count of any block's codeword list. -/
def maxColLen (cwss : List (List (List Bool))) : Nat :=
  (cwss.map List.length).foldr max 0

/-- The spec's column-by-column interleaving: for i = 0, 1, 2, …, every block
in order contributes its i-th codeword when it still has one; the iteration
stops when all blocks are exhausted. -/
def interleaveCodewords (cwss : List (List (List Bool))) : List (List Bool) :=
  (List.range (maxColLen cwss)).flatMap (fun i => cwss.filterMap (fun cws => cws[i]?))

/-- A bound on every member bounds the max fold. -/
theorem foldr_max_le (l : List Nat) (K : Nat) (h : ∀ x ∈ l, x ≤ K) :
    l.foldr max 0 ≤ K := by
  induction l with
  | nil => exact Nat.zero_le K
  | cons a l ih =>
    simp only [List.foldr_cons, max_le_iff]
    exact ⟨h a (by simp), ih (fun x hx => h x (by simp [hx]))⟩

/-- Members bound the max fold from below. -/
theorem le_foldr_max (l : List Nat) (x : Nat) (h : x ∈ l) : x ≤ l.foldr max 0 := by
  induction l with
  | nil => cases h
  | cons a l ih =>
    rcases List.mem_cons.mp h with rfl | hx
    · simp
    · simp only [List.foldr_cons, le_max_iff]
      exact Or.inr (ih hx)

/-- Strict bounds against the max fold come from some member. -/
theorem lt_foldr_max_iff (l : List Nat) (c : Nat) :
    c < l.foldr max 0 ↔ ∃ x ∈ l, c < x := by
  induction l with
  | nil => simp
  | cons a l ih => simp [lt_max_iff, ih]

/-- One pass of the data-interleaving loop. -/
theorem interleave8_succ (blocks : List (List Bool × Nat)) (f i : Nat) :
    interleave8 blocks (f + 1) i =
      if blocks.any (fun b => decide (i < b.2)) then
        (blocks.filterMap
          (fun b => if i < b.2 then some (Substr b.1 i (i + 8)) else none)).flatten
          ++ interleave8 blocks f (i + 8)
      else [] := rfl

/-- The Go interleaving loop equals the spec's column-by-column emission,
column `c` onward, once the fuel covers the remaining columns. -/
theorem interleave8_eq (blocks : List (List Bool × Nat))
    (hwf : ∀ b ∈ blocks, 8 ∣ b.2 ∧ b.2 ≤ b.1.length) :
    ∀ (f c : Nat),
      maxColLen (blocks.map (fun b => chunk8 (b.1.take b.2))) ≤ c + f →
      interleave8 blocks f (8 * c) =
        ((List.range' c
          (maxColLen (blocks.map (fun b => chunk8 (b.1.take b.2))) - c)).flatMap
          (fun i => (blocks.map (fun b => chunk8 (b.1.take b.2))).filterMap
            (fun cws => cws[i]?))).flatten := by
  have htake : ∀ b ∈ blocks, (b.1.take b.2).length = b.2 := by
    intro b hb
    rw [List.length_take]
    exact Nat.min_eq_left (hwf b hb).2
  have hlen : ∀ b ∈ blocks, (chunk8 (b.1.take b.2)).length = b.2 / 8 := by
    intro b hb
    rw [chunk8_length _ ((htake b hb).symm ▸ (hwf b hb).1), htake b hb]
  intro f
  induction f with
  | zero =>
    intro c hM
    rw [show maxColLen (blocks.map (fun b => chunk8 (b.1.take b.2))) - c = 0 from by omega]
    rfl
  | succ f ih =>
    intro c hM
    by_cases hc : c < maxColLen (blocks.map (fun b => chunk8 (b.1.take b.2)))
    · have hguard : blocks.any (fun b => decide (8 * c < b.2)) = true := by
        rw [List.any_eq_true]
        obtain ⟨x, hxmem, hxlt⟩ := (lt_foldr_max_iff _ c).mp hc
        obtain ⟨cws, hcwsmem, rfl⟩ := List.mem_map.mp hxmem
        obtain ⟨b, hbmem, rfl⟩ := List.mem_map.mp hcwsmem
        refine ⟨b, hbmem, ?_⟩
        rw [hlen b hbmem] at hxlt
        obtain ⟨hdvd, _⟩ := hwf b hbmem
        simp only [decide_eq_true_eq]
        omega
      rw [interleave8_succ, if_pos hguard]
      have hcol : blocks.filterMap
          (fun b => if 8 * c < b.2 then some (Substr b.1 (8 * c) (8 * c + 8)) else none) =
          (blocks.map (fun b => chunk8 (b.1.take b.2))).filterMap (fun cws => cws[c]?) := by
        rw [List.filterMap_map]
        refine (List.filterMap_congr ?_).symm
        intro b hbmem
        obtain ⟨hdvd, hble⟩ := hwf b hbmem
        show (chunk8 (b.1.take b.2))[c]? = _
        rw [chunk8_getElem? c _ ((htake b hbmem).symm ▸ hdvd), htake b hbmem]
        by_cases h8c : 8 * c < b.2
        · rw [if_pos h8c, if_pos h8c]
          congr 1
          rw [List.drop_take, List.take_take]
          rw [show min 8 (b.2 - 8 * c) = 8 from by omega]
          show _ = (b.1.drop (8 * c)).take (8 * c + 8 - 8 * c)
          rw [show 8 * c + 8 - 8 * c = 8 from by omega]
        · rw [if_neg h8c, if_neg h8c]
      rw [hcol]
      rw [show maxColLen (blocks.map (fun b => chunk8 (b.1.take b.2))) - c =
        (maxColLen (blocks.map (fun b => chunk8 (b.1.take b.2))) - (c + 1)) + 1 from by omega]
      rw [List.range'_succ, List.flatMap_cons, List.flatten_append]
      congr 1
      rw [show 8 * c + 8 = 8 * (c + 1) from by omega]
      exact ih (c + 1) (by omega)
    · have hguard : ¬ blocks.any (fun b => decide (8 * c < b.2)) = true := by
        intro hA
        obtain ⟨b, hbmem, hblt⟩ := List.any_eq_true.mp hA
        simp only [decide_eq_true_eq] at hblt
        have hmem : (chunk8 (b.1.take b.2)).length ∈
            (blocks.map (fun b => chunk8 (b.1.take b.2))).map List.length := by
          exact List.mem_map.mpr ⟨chunk8 (b.1.take b.2),
            List.mem_map.mpr ⟨b, hbmem, rfl⟩, rfl⟩
        have hle2 : (chunk8 (b.1.take b.2)).length ≤
            maxColLen (blocks.map (fun b => chunk8 (b.1.take b.2))) :=
          le_foldr_max _ _ hmem
        rw [hlen b hbmem] at hle2
        obtain ⟨hdvd, _⟩ := hwf b hbmem
        obtain ⟨k, hk⟩ := hdvd
        omega
      rw [interleave8_succ, if_neg hguard]
      rw [show maxColLen (blocks.map (fun b => chunk8 (b.1.take b.2))) - c = 0 from by omega]
      rfl

/-- One pass of the EC-interleaving loop. -/
theorem interleaveEC_succ (blocks : List (List Bool × Nat)) (f i : Nat) :
    interleaveEC blocks (f + 1) i =
      if blocks.any (fun b => decide (i + b.2 < b.1.length)) then
        (blocks.filterMap (fun b =>
          if i + b.2 < b.1.length then some (Substr b.1 (i + b.2) (i + b.2 + 8)) else none)).flatten
          ++ interleaveEC blocks f (i + 8)
      else [] := rfl

/-- The EC loop is the data loop run over the blocks' EC tails. -/
theorem interleaveEC_eq (blocks : List (List Bool × Nat)) :
    ∀ (f i : Nat), interleaveEC blocks f i =
      interleave8 (blocks.map (fun b => (b.1.drop b.2, b.1.length - b.2))) f i := by
  intro f
  induction f with
  | zero => intro i; rfl
  | succ f ih =>
    intro i
    rw [interleaveEC_succ, interleave8_succ]
    have hguard : (blocks.map (fun b => (b.1.drop b.2, b.1.length - b.2))).any
        (fun b => decide (i < b.2)) =
        blocks.any (fun b => decide (i + b.2 < b.1.length)) := by
      rw [List.any_map]
      congr 1
      funext b
      show decide (i < b.1.length - b.2) = decide (i + b.2 < b.1.length)
      exact decide_eq_decide.mpr (by omega)
    rw [hguard]
    by_cases hg : blocks.any (fun b => decide (i + b.2 < b.1.length)) = true
    · rw [if_pos hg, if_pos hg]
      congr 1
      · congr 1
        rw [List.filterMap_map]
        apply List.filterMap_congr
        intro b _
        show (if i + b.2 < b.1.length then some (Substr b.1 (i + b.2) (i + b.2 + 8)) else none) =
          (if i < b.1.length - b.2 then some (Substr (b.1.drop b.2) i (i + 8)) else none)
        by_cases hcond : i + b.2 < b.1.length
        · rw [if_pos hcond, if_pos (by omega)]
          congr 1
          show (b.1.drop (i + b.2)).take (i + b.2 + 8 - (i + b.2)) =
            ((b.1.drop b.2).drop i).take (i + 8 - i)
          rw [List.drop_drop]
          rw [show b.2 + i = i + b.2 from by omega]
          rw [show i + b.2 + 8 - (i + b.2) = 8 from by omega]
          rw [show i + 8 - i = 8 from by omega]
        · rw [if_neg hcond, if_neg (by omega)]
      · exact ih (i + 8)
    · rw [if_neg hg, if_neg hg]

/-- The original data substrings of each block, in block order: the spec's
"block j's data codewords" before error correction. -/
def dataSubstrs (data : List Bool) : List (Nat × Nat) → Nat → List (List Bool)
  | [], _ => []
  | (dcw, _) :: rest, start =>
    Substr data start (start + dcw * 8) :: dataSubstrs data rest (start + dcw * 8)

/-- Structure of the split blocks: every block's `ecStartOffset` is a whole
number of codeword bits within its (data ++ EC) bits, the EC tail is a whole
number of codewords, and the data prefix is the original substring of the
padded message. -/
theorem splitBlocks_facts (rs : List Bool → Nat → List Bool)
    (hrs : ∀ d t, ∃ e, rs d t = d ++ e ∧ e.length = 8 * t)
    (data : List Bool) :
    ∀ (spans : List (Nat × Nat)) (start : Nat),
      start + ((spans.map (fun sp => sp.1 * 8)).sum) ≤ data.length →
      (∀ b ∈ splitBlocks rs data spans start,
        8 ∣ b.2 ∧ b.2 ≤ b.1.length ∧ 8 ∣ (b.1.length - b.2)) ∧
      (splitBlocks rs data spans start).map (fun b => b.1.take b.2) =
        dataSubstrs data spans start := by
  intro spans
  induction spans with
  | nil =>
    intro start _
    exact ⟨fun b hb => absurd hb (List.not_mem_nil b), rfl⟩
  | cons sp rest ih =>
    obtain ⟨dcw, cw⟩ := sp
    intro start hlen
    simp only [List.map_cons, List.sum_cons] at hlen
    have hsub : (Substr data start (start + dcw * 8)).length = dcw * 8 := by
      rw [Substr, List.length_take, List.length_drop]
      rw [show start + dcw * 8 - start = dcw * 8 from by omega]
      exact Nat.min_eq_left (by omega)
    obtain ⟨e, hrseq, helen⟩ := hrs (Substr data start (start + dcw * 8)) (cw - dcw)
    have hrest := ih (start + dcw * 8) (by omega)
    constructor
    · intro b hb
      rcases List.mem_cons.mp hb with rfl | hbtail
      · refine ⟨?_, ?_, ?_⟩
        · rw [show start + dcw * 8 - start = dcw * 8 from by omega]
          exact ⟨dcw, by ring⟩
        · rw [hrseq, List.length_append, hsub]
          omega
        · rw [hrseq, List.length_append, hsub, helen]
          exact ⟨cw - dcw, by omega⟩
      · exact hrest.1 b hbtail
    · rw [splitBlocks, List.map_cons]
      congr 1
      · show (rs (Substr data start (start + dcw * 8)) (cw - dcw)).take
          (start + dcw * 8 - start) = Substr data start (start + dcw * 8)
        rw [hrseq, show start + dcw * 8 - start = dcw * 8 from by omega]
        rw [List.take_append_of_le_length (by rw [hsub])]
        exact List.take_of_length_le (by rw [hsub])
      · exact hrest.2

/-- Total data bits of the expanded block spans equal the version's
`numDataBits`. -/
theorem expandSpans_sum (groups : List blockGroup) :
    ((expandSpans groups).map (fun sp => sp.1 * 8)).sum =
      (groups.map (fun g => 8 * g.numBlocks * g.numDataCodewords)).sum := by
  induction groups with
  | nil => rfl
  | cons g rest ih =>
    rw [show expandSpans (g :: rest) =
      List.replicate g.numBlocks (g.numDataCodewords, g.numCodewords) ++ expandSpans rest
      from rfl]
    rw [List.map_append, List.sum_append, ih, List.map_cons, List.sum_cons]
    congr 1
    rw [List.map_replicate, List.sum_replicate, smul_eq_mul]
    ring

/-- C3: for every block layout, `encodeBlocks` emits exactly the data
codewords interleaved column-by-column across the blocks in order (block j's
i-th codeword emitted only while i is below that block's data codeword count,
exhausted blocks skipped), then the EC codewords interleaved the same way,
then the version's remainder bits as zeros; and the emitted data codewords
are precisely the blocks' original data substrings of the padded message. -/
theorem encodeBlocks_interleaves (rs : List Bool → Nat → List Bool) (ver : qrCodeVersion)
    (data : List Bool)
    (hrs : ∀ d t, ∃ e, rs d t = d ++ e ∧ e.length = 8 * t)
    (hdata : ver.numDataBits ≤ data.length) :
    encodeBlocks rs ver data =
      (interleaveCodewords ((splitBlocks rs data (expandSpans ver.block) 0).map
        (fun b => chunk8 (b.1.take b.2)))).flatten ++
      (interleaveCodewords ((splitBlocks rs data (expandSpans ver.block) 0).map
        (fun b => chunk8 (b.1.drop b.2)))).flatten ++
      List.replicate ver.numRemainderBits false ∧
    (splitBlocks rs data (expandSpans ver.block) 0).map (fun b => b.1.take b.2) =
      dataSubstrs data (expandSpans ver.block) 0 := by
  have htotal : ((expandSpans ver.block).map (fun sp => sp.1 * 8)).sum = ver.numDataBits := by
    rw [expandSpans_sum]
    rfl
  obtain ⟨hwf3, hmap⟩ := splitBlocks_facts rs hrs data (expandSpans ver.block) 0
    (by rw [htotal]; omega)
  refine ⟨?_, hmap⟩
  set blocks := splitBlocks rs data (expandSpans ver.block) 0 with hB
  have hwf : ∀ b ∈ blocks, 8 ∣ b.2 ∧ b.2 ≤ b.1.length :=
    fun b hb => ⟨(hwf3 b hb).1, (hwf3 b hb).2.1⟩
  have hEB : encodeBlocks rs ver data =
      interleave8 blocks (((blocks.map (fun b => b.2)).foldr max 0) / 8 + 1) 0 ++
      interleaveEC blocks (((blocks.map (fun b => b.1.length - b.2)).foldr max 0) / 8 + 1) 0 ++
      List.replicate ver.numRemainderBits false := by
    rw [hB]
    rfl
  rw [hEB]
  congr 1
  congr 1
  · have hdf : maxColLen (blocks.map (fun b => chunk8 (b.1.take b.2))) ≤
        0 + (((blocks.map (fun b => b.2)).foldr max 0) / 8 + 1) := by
      rw [Nat.zero_add]
      refine le_trans (foldr_max_le _ _ ?_) (Nat.le_succ _)
      intro x hx
      obtain ⟨cws, hcwsmem, rfl⟩ := List.mem_map.mp hx
      obtain ⟨b, hbmem, rfl⟩ := List.mem_map.mp hcwsmem
      have htk : (b.1.take b.2).length = b.2 := by
        rw [List.length_take]
        exact Nat.min_eq_left (hwf b hbmem).2
      rw [chunk8_length _ (by rw [htk]; exact (hwf b hbmem).1), htk]
      apply Nat.div_le_div_right
      exact le_foldr_max _ _ (List.mem_map.mpr ⟨b, hbmem, rfl⟩)
    have h1 := interleave8_eq blocks hwf
      (((blocks.map (fun b => b.2)).foldr max 0) / 8 + 1) 0 hdf
    simp only [Nat.mul_zero] at h1
    rw [h1, interleaveCodewords, List.range_eq_range', Nat.sub_zero]
  · have hwfS : ∀ b' ∈ blocks.map (fun b => (b.1.drop b.2, b.1.length - b.2)),
        8 ∣ b'.2 ∧ b'.2 ≤ b'.1.length := by
      intro b' hb'
      obtain ⟨b, hbmem, rfl⟩ := List.mem_map.mp hb'
      refine ⟨(hwf3 b hbmem).2.2, ?_⟩
      rw [List.length_drop]
    have hmm : (blocks.map (fun b => (b.1.drop b.2, b.1.length - b.2))).map
        (fun b => chunk8 (b.1.take b.2)) = blocks.map (fun b => chunk8 (b.1.drop b.2)) := by
      rw [List.map_map]
      apply List.map_congr_left
      intro b _
      show chunk8 ((b.1.drop b.2).take (b.1.length - b.2)) = chunk8 (b.1.drop b.2)
      rw [List.take_of_length_le (by rw [List.length_drop])]
    have hefS : maxColLen ((blocks.map (fun b => (b.1.drop b.2, b.1.length - b.2))).map
        (fun b => chunk8 (b.1.take b.2))) ≤
        0 + (((blocks.map (fun b => b.1.length - b.2)).foldr max 0) / 8 + 1) := by
      rw [Nat.zero_add]
      refine le_trans (foldr_max_le _ _ ?_) (Nat.le_succ _)
      intro x hx
      obtain ⟨cws, hcwsmem, rfl⟩ := List.mem_map.mp hx
      obtain ⟨b', hbmem', rfl⟩ := List.mem_map.mp hcwsmem
      obtain ⟨b, hbmem, rfl⟩ := List.mem_map.mp hbmem'
      have htk : ((b.1.drop b.2).take (b.1.length - b.2)).length = b.1.length - b.2 := by
        rw [List.length_take, List.length_drop]
        exact Nat.min_eq_left (le_refl _)
      rw [chunk8_length _ (by rw [htk]; exact (hwf3 b hbmem).2.2), htk]
      apply Nat.div_le_div_right
      exact le_foldr_max _ _ (List.mem_map.mpr ⟨b, hbmem, rfl⟩)
    have h2 := interleave8_eq (blocks.map (fun b => (b.1.drop b.2, b.1.length - b.2))) hwfS
      (((blocks.map (fun b => b.1.length - b.2)).foldr max 0) / 8 + 1) 0 hefS
    simp only [Nat.mul_zero] at h2
    rw [interleaveEC_eq, h2, hmm, interleaveCodewords, List.range_eq_range', Nat.sub_zero]

/-- A concrete Reed–Solomon stand-in for the C3 witness: data followed by
zero EC bits of the right length. -/
def witRS (d : List Bool) (t : Nat) : List Bool := d ++ List.replicate (8 * t) false

/-- A concrete two-block layout with unequal data codeword counts (2 and 3)
for the C3 witness. -/
def witVer : qrCodeVersion :=
  { version := 5, level := .Low, block := [⟨1, 3, 2⟩, ⟨1, 4, 3⟩],
    numRemainderBits := 3, quietZoneSize := 4 }

/-- A 40-bit padded message filling the witness layout exactly. -/
def witData : List Bool := List.replicate 40 true

/-- C3 witness: the interleaving theorem applied to the concrete layout, both
hypotheses discharged concretely. -/
theorem encodeBlocks_interleaves_witness :
    encodeBlocks witRS witVer witData =
      (interleaveCodewords ((splitBlocks witRS witData (expandSpans witVer.block) 0).map
        (fun b => chunk8 (b.1.take b.2)))).flatten ++
      (interleaveCodewords ((splitBlocks witRS witData (expandSpans witVer.block) 0).map
        (fun b => chunk8 (b.1.drop b.2)))).flatten ++
      List.replicate witVer.numRemainderBits false ∧
    (splitBlocks witRS witData (expandSpans witVer.block) 0).map (fun b => b.1.take b.2) =
      dataSubstrs witData (expandSpans witVer.block) 0 :=
  encodeBlocks_interleaves witRS witVer witData
    (fun _ t => ⟨List.replicate (8 * t) false, rfl, by simp⟩)
    (by decide)
